import Mathlib

/-!
The SRPM import mode of srpmproc (`internal/srpm.go`).

A shallow embedding of `SrpmMode.RetrieveSource` and `SrpmMode.WriteSource`.

Conventions of the embedding.

* A Go `string` and a Go `[]byte` are both modelled by a Lean `String`; every
  test the code makes on a name (`'.'`, `'/'`, `".tar"`, `".spec"`) is on ASCII
  characters, so working on characters or on UTF-8 bytes gives the same answer.
* `os.FileMode` and open flags are natural numbers.
* The Go standard library functions the code calls (`strings.Contains`,
  `filepath.Ext`, `filepath.Join`, `filepath.Clean`, the `%d` and `%s` verbs of
  `fmt.Sprintf`) are embedded as they behave on a Unix target (separator `/`,
  no volume names).
* The in-memory worktree is observed through the chronological list of the
  calls made on it (`FsEvent`); a call that returns an error makes the code
  call `log.Fatal`, which is the result `none`.
* A Go `map[string][]byte` is an association list with distinct keys; the
  order in which `range` visits it is an explicit argument.
-/

namespace Srpmproc

/-! ## Standard library: strings -/

/-- Go `strings.HasPrefix`. -/
def hasPrefix (s pre : String) : Bool := pre.data.isPrefixOf s.data

/-- Go `strings.HasSuffix`. -/
def hasSuffix (s suf : String) : Bool := suf.data.isSuffixOf s.data

/-- The scan of `strings.Index`: is `sub` a prefix of some suffix of the text. -/
def containsChars (sub : List Char) : List Char → Bool
  | [] => sub.isPrefixOf []
  | c :: t => sub.isPrefixOf (c :: t) || containsChars sub t

/-- Go `strings.Contains(s, substr)`. -/
def contains (s substr : String) : Bool := containsChars substr.data s.data

/-! ## Standard library: path/filepath (Unix) -/

/-- Go `os.IsPathSeparator` on Unix. -/
def isSep (c : Char) : Bool := c == '/'

/-- The loop of `filepath.Ext`, walking the path from its last byte: the first
argument is what is left of the path, reversed, the second the bytes already
passed. -/
def extScan : List Char → List Char → List Char
  | [], _ => []
  | c :: rest, acc =>
    if isSep c then []
    else if c = '.' then '.' :: acc
    else extScan rest (c :: acc)

/-- Go `filepath.Ext`: the suffix beginning at the final dot of the final
element of the path, empty if there is no dot. -/
def Ext (path : String) : String := ⟨extScan path.data.reverse []⟩

/-- The inner loop of the `..` case of `filepath.Clean`: starting from the
write index `w`, step back while `w > dotdot` and the byte at `w` is not a
separator. -/
def backtrack (out : List Char) (dotdot : Nat) : Nat → Nat
  | 0 => 0
  | w + 1 =>
    if dotdot < w + 1 ∧ isSep (out.getD (w + 1) '/') = false then backtrack out dotdot w
    else w + 1

/-- The main loop `for r < n` of `filepath.Clean`. `rest` is `path[r:]`, `out`
the bytes written so far (`out.w` is its length). Every iteration consumes at
least one byte of `rest`, so a fuel of `len(path)` is never exhausted. -/
def cleanLoop (rooted : Bool) : Nat → List Char → List Char → Nat → List Char
  | 0, _, out, _ => out
  | _ + 1, [], out, _ => out
  | fuel + 1, c :: t, out, dotdot =>
    if isSep c then
      -- empty path element
      cleanLoop rooted fuel t out dotdot
    else if c = '.' ∧ (t = [] ∨ isSep (t.headD 'x') = true) then
      -- . element
      cleanLoop rooted fuel t out dotdot
    else if c = '.' ∧ t.headD 'x' = '.' ∧ (t.tail = [] ∨ isSep (t.tail.headD 'x') = true) then
      -- .. element: remove to last separator
      if dotdot < out.length then
        cleanLoop rooted fuel t.tail (out.take (backtrack out dotdot (out.length - 1))) dotdot
      else if rooted = false then
        let out1 := (if 0 < out.length then out ++ ['/'] else out) ++ ['.', '.']
        cleanLoop rooted fuel t.tail out1 out1.length
      else
        cleanLoop rooted fuel t.tail out dotdot
    else
      -- real path element: add slash if needed, copy element
      let out1 :=
        if (rooted = true ∧ out.length ≠ 1) ∨ (rooted = false ∧ out.length ≠ 0) then out ++ ['/']
        else out
      cleanLoop rooted fuel ((c :: t).dropWhile (fun x => !isSep x))
        (out1 ++ (c :: t).takeWhile (fun x => !isSep x)) dotdot

/-- Go `filepath.Clean` on Unix. -/
def Clean (path : String) : String :=
  if path.data = [] then "."
  else
    let rooted := isSep (path.data.headD 'x')
    let out :=
      if rooted then cleanLoop true path.data.length (path.data.drop 1) ['/'] 1
      else cleanLoop false path.data.length path.data [] 0
    if out.length = 0 then "." else ⟨out⟩

/-- Go `strings.Join(elems, "/")`. -/
def joinSlash : List String → String
  | [] => ""
  | [e] => e
  | e :: es => e ++ "/" ++ joinSlash es

/-- Go `filepath.Join`: the elements from the first non-empty one on, joined by
the separator and cleaned; the empty string if all elements are empty. -/
def Join (elem : List String) : String :=
  match elem.dropWhile (fun e => e = "") with
  | [] => ""
  | es => Clean (joinSlash es)

/-! ## Standard library: fmt -/

/-- The digit loop of `fmt.fmtInteger` in base 10: while `u >= 10` the digit
`u - (u/10)*10` is written in front of the buffer, then the last digit. The
loop runs once per decimal digit of `u`, so a fuel of `u + 1` is never
exhausted. -/
def fmtDigits : Nat → Nat → List Char → List Char
  | 0, _, acc => acc
  | fuel + 1, u, acc =>
    if 10 ≤ u then fmtDigits fuel (u / 10) (Char.ofNat (48 + (u - (u / 10) * 10)) :: acc)
    else Char.ofNat (48 + u) :: acc

/-- The verb `%d` of `fmt.Sprintf` on a Go `int`: the digits of the absolute
value, with a minus sign in front for a negative number. -/
def fmtD (v : Int) : String :=
  let digits := fmtDigits (v.natAbs + 1) v.natAbs []
  if v < 0 then ⟨'-' :: digits⟩ else ⟨digits⟩

/-- The number a list of decimal digits denotes. -/
def decimalValue (cs : List Char) : Nat :=
  cs.foldl (fun n c => 10 * n + (c.toNat - 48)) 0

/-! ## Data model -/

/-- What the code observes of an `rpm.FileInfo`: `Name()` and `Mode()`. -/
structure FileInfo where
  Name : String
  Mode : Nat
deriving DecidableEq, Repr

/-- What the code observes of an `rpm.PackageFile`: `Source()`, `Patch()` and
`Files()`. -/
structure PackageFile where
  Source : List String
  Patch : List String
  Files : List FileInfo
deriving DecidableEq, Repr

/-- A `hash.Hash` value. The only thing `WriteSource` does with it is to format
it, as a field of the struct it belongs to, under the verb `%s`; `text` is the
text `fmt` produces for it there. -/
structure HashState where
  text : String
deriving DecidableEq, Repr

/-- Modelled from the spec: the declaration of the type `ignoredSource` is not
in `srpm.go`. It has the two fields the composite literal of `RetrieveSource`
sets, the name of the declared source and its content-hash accumulator, and no
formatting method. -/
structure ignoredSource where
  name : String
  hashFunction : HashState
deriving DecidableEq, Repr

/-- Modelled from the spec: `ProcessData` is declared outside `srpm.go`; the
code reads the package path and the integer target version. -/
structure ProcessData where
  RpmLocation : String
  Version : Int
deriving DecidableEq, Repr

/-- A call made on the worktree (`md.worktree.Filesystem` or `md.worktree`). -/
inductive FsEvent where
  | mkdirAll (path : String) (perm : Nat)
  | openFile (path : String) (flag : Nat) (perm : Nat)
  | create (path : String)
  | write (path : String) (data : String)
  | close (path : String)
  | add (path : String)
deriving DecidableEq, Repr

/-- Modelled from the spec: `modeData` is declared outside `srpm.go`. The
repository and worktree handles are represented by the calls made on the
worktree so far. `fileWrites` is a Go map: its keys are distinct. -/
structure modeData where
  worktree : List FsEvent
  rpmFile : PackageFile
  fileWrites : List (String × String)
  branches : List String
  sourcesToIgnore : List ignoredSource
deriving DecidableEq, Repr

/-- Which calls on the worktree return an error, given the calls made before. -/
structure Faults where
  openFile : List FsEvent → String → Bool
  write : List FsEvent → String → String → Bool
  close : List FsEvent → String → Bool
  add : List FsEvent → String → Bool
  create : List FsEvent → String → Bool

/-- No call on the worktree fails. -/
def noFaults : Faults :=
  ⟨fun _ _ => false, fun _ _ _ => false, fun _ _ => false, fun _ _ => false, fun _ _ => false⟩

/-! ## RetrieveSource -/

/-- One round of the decoding loop: what `r.Next()` and `ioutil.ReadAll(r)`
return. -/
inductive CpioStep where
  | member (name : String) (body : String)
  | headerError
  | bodyError (name : String)
deriving DecidableEq, Repr

/-- Go `m[k] = v` on a map kept as an association list. -/
def mapStore : List (String × String) → String → String → List (String × String)
  | [], k, v => [(k, v)]
  | (k', v') :: m, k, v => if k' = k then (k, v) :: m else (k', v') :: mapStore m k v

/-- Go `m[k]` with the presence flag. -/
def mapLoad : List (String × String) → String → Option String
  | [], _ => none
  | (k', v') :: m, k => if k' = k then some v' else mapLoad m k

/-- The decoding loop of `RetrieveSource` (lines 40 to 55). The reader is the
list of rounds it will deliver; when the list is exhausted `r.Next()` returns
`io.EOF`. An error is fatal. -/
def readArchive : List CpioStep → List (String × String) → Option (List (String × String))
  | [], fileWrites => some fileWrites
  | CpioStep.member name bts :: r, fileWrites => readArchive r (mapStore fileWrites name bts)
  | CpioStep.headerError :: _, _ => none
  | CpioStep.bodyError _ :: _, _ => none

/-- The classification loop of `RetrieveSource` (lines 81 to 89); `newHash` is
the value of `sha256.New()`. -/
def classifySources (newHash : HashState) :
    List String → List ignoredSource → List ignoredSource
  | [], sourcesToIgnore => sourcesToIgnore
  | source :: rest, sourcesToIgnore =>
    if contains source ".tar" then
      classifySources newHash rest (sourcesToIgnore ++ [⟨source, newHash⟩])
    else classifySources newHash rest sourcesToIgnore

/-- Go `SrpmMode.RetrieveSource`. `cpio` is the output of `rpm2cpio` as the
cpio reader delivers it (`none` if the command fails), `pkg` the result of
opening and parsing the package (`none` on error). Creating the in-memory
repository, its worktree and the two directories is taken to succeed. -/
def RetrieveSource (pd : ProcessData) (cpio : Option (List CpioStep))
    (pkg : Option PackageFile) (newHash : HashState) : Option modeData :=
  match cpio with
  | none => none
  | some r =>
    match readArchive r [] with
    | none => none
    | some fileWrites =>
      let w := [FsEvent.mkdirAll "SPECS" 0o755, FsEvent.mkdirAll "SOURCES" 0o755]
      match pkg with
      | none => none
      | some rpmFile =>
        let sourcesToIgnore := classifySources newHash rpmFile.Source []
        let branch := "rocky" ++ fmtD pd.Version
        some ⟨w, rpmFile, fileWrites, [branch], sourcesToIgnore⟩

/-! ## WriteSource -/

/-- Modelled from the spec: `ignoredContains` is defined outside `srpm.go`.
An entry is skipped from staging when its name matches an excluded source:
some element of the list has exactly this name. -/
def ignoredContains : List ignoredSource → String → Bool
  | [], _ => false
  | val :: a, b => if val.name = b then true else ignoredContains a b

/-- The destination of an entry (lines 104 to 109). -/
def newPath (fileName : String) : String :=
  if Ext fileName = ".spec" then Join ["SPECS", fileName]
  else Join ["SOURCES", fileName]

/-- The loop over `md.rpmFile.Files()` (lines 112 to 116), from the current
value of `mode`. -/
def modeLoop : List FileInfo → String → Nat → Nat
  | [], _, mode => mode
  | file :: rest, fileName, mode =>
    if file.Name = fileName then modeLoop rest fileName file.Mode
    else modeLoop rest fileName mode

/-- The permission of an entry (lines 111 to 116). -/
def fileMode (rpmFile : PackageFile) (fileName : String) : Nat :=
  modeLoop rpmFile.Files fileName 0o666

/-- Go `os.O_RDWR|os.O_CREATE|os.O_TRUNC` on Linux. -/
def openFlags : Nat := 0x2 + 0x40 + 0x200

/-- The body of the loop of `WriteSource` for one entry (lines 104 to 140). -/
def writeEntry (ft : Faults) (md : modeData) (tr : List FsEvent)
    (fileName contents : String) : Option (List FsEvent) :=
  let p := newPath fileName
  let mode := fileMode md.rpmFile fileName
  if ft.openFile tr p then none
  else
    let tr1 := tr ++ [FsEvent.openFile p openFlags mode]
    if ft.write tr1 p contents then none
    else
      -- the error of f.Close() is discarded
      let tr2 := tr1 ++ [FsEvent.write p contents, FsEvent.close p]
      if ignoredContains md.sourcesToIgnore fileName then some tr2
      else if ft.add tr2 p then none
      else some (tr2 ++ [FsEvent.add p])

/-- The loop of `WriteSource` over `md.fileWrites` (lines 103 to 141), the
entries taken in the order `range` delivers them. -/
def writeEntries (ft : Faults) (md : modeData) :
    List (String × String) → List FsEvent → Option (List FsEvent)
  | [], tr => some tr
  | (fileName, contents) :: rest, tr =>
    match writeEntry ft md tr fileName contents with
    | none => none
    | some tr1 => writeEntries ft md rest tr1

/-- The verb `%s` of `fmt.Sprintf` on a `*ignoredSource`: a pointer to a struct
without formatting methods is printed as `&` and the fields, each under the
same verb, between braces and separated by a blank. -/
def fmtS (ignore : ignoredSource) : String :=
  "&\x7b" ++ ignore.name ++ " " ++ ignore.hashFunction.text ++ "\x7d"

/-- The loop writing the lines of `.gitignore` (lines 148 to 154). -/
def writeIgnoreLines (ft : Faults) : List ignoredSource → List FsEvent → Option (List FsEvent)
  | [], tr => some tr
  | ignore :: rest, tr =>
    let line := "SOURCES/" ++ fmtS ignore ++ "\n"
    if ft.write tr ".gitignore" line then none
    else writeIgnoreLines ft rest (tr ++ [FsEvent.write ".gitignore" line])

/-- Go `SrpmMode.WriteSource`. `order` is the sequence in which `range`
visits `md.fileWrites` (a permutation of it). The result is the list of calls
made on the worktree, or `none` when the run ends in `log.Fatalf`. -/
def WriteSource (ft : Faults) (md : modeData) (order : List (String × String)) :
    Option (List FsEvent) :=
  match writeEntries ft md order md.worktree with
  | none => none
  | some tr =>
    if ft.create tr ".gitignore" then none
    else
      match writeIgnoreLines ft md.sourcesToIgnore (tr ++ [FsEvent.create ".gitignore"]) with
      | none => none
      | some tr1 =>
        if ft.close tr1 ".gitignore" then none
        else some (tr1 ++ [FsEvent.close ".gitignore"])

/-! ## Observations on a run -/

/-- The paths written, in order. -/
def writtenPaths : List FsEvent → List String
  | [] => []
  | FsEvent.write p _ :: tr => p :: writtenPaths tr
  | _ :: tr => writtenPaths tr

/-- The paths passed to `worktree.Add`, in order. -/
def stagedPaths : List FsEvent → List String
  | [] => []
  | FsEvent.add p :: tr => p :: stagedPaths tr
  | _ :: tr => stagedPaths tr

/-- The effect of one call on the content of the file at `p` (`none`: no such
file). Opening with `O_CREATE|O_TRUNC` (which `Create` does too) leaves the
file empty; a write on the freshly opened handle appends. -/
def applyEvent (p : String) (content : Option String) : FsEvent → Option String
  | FsEvent.openFile q _ _ => if q = p then some "" else content
  | FsEvent.create q => if q = p then some "" else content
  | FsEvent.write q data => if q = p then content.map (fun c => c ++ data) else content
  | _ => content

/-- The content of the file at `p` after the calls `tr` on an empty tree. -/
def fileContent (tr : List FsEvent) (p : String) : Option String :=
  tr.foldl (applyEvent p) none

/-- The calls one completed round of the loop of `WriteSource` makes. -/
def entryEvents (md : modeData) (e : String × String) : List FsEvent :=
  [FsEvent.openFile (newPath e.1) openFlags (fileMode md.rpmFile e.1),
    FsEvent.write (newPath e.1) e.2, FsEvent.close (newPath e.1)]
  ++ (if ignoredContains md.sourcesToIgnore e.1 then [] else [FsEvent.add (newPath e.1)])

/-- The line `WriteSource` writes to `.gitignore` for one excluded source. -/
def ignoreLine (ignore : ignoredSource) : String := "SOURCES/" ++ fmtS ignore ++ "\n"

/-- The calls of a completed `WriteSource` after its loop. -/
def ignoreEvents (md : modeData) : List FsEvent :=
  FsEvent.create ".gitignore"
    :: md.sourcesToIgnore.map (fun i => FsEvent.write ".gitignore" (ignoreLine i))
    ++ [FsEvent.close ".gitignore"]

/-- The concatenation of a list of lines. -/
def concatLines : List String → String
  | [] => ""
  | a :: l => a ++ concatLines l

/-- The elements of a path: the pieces between separators. -/
def splitSep : List Char → List (List Char)
  | [] => [[]]
  | c :: t =>
    if isSep c then [] :: splitSep t
    else
      match splitSep t with
      | [] => [[c]]
      | e :: es => (c :: e) :: es

/-- Lexical resolution of path elements against a stack of kept elements (the
last kept element first): an empty or `.` element is dropped, a `..` element
cancels the last kept element unless there is none or it is itself `..`, in
which case the `..` is kept; any other element is kept. -/
def resolve : List (List Char) → List (List Char) → List (List Char)
  | [], st => st
  | e :: es, st =>
    if e = [] ∨ e = ['.'] then resolve es st
    else if e = ['.', '.'] then
      match st with
      | [] => resolve es [e]
      | top :: below =>
        if top = ['.', '.'] then resolve es (e :: top :: below) else resolve es below
    else resolve es (e :: st)

/-- The text of a stack of kept elements (the last kept element first): the
elements from the first kept one on, joined by separators. -/
def joinRev : List (List Char) → List Char
  | [] => []
  | [a] => a
  | top :: b :: below => joinRev (b :: below) ++ '/' :: top

/-- The path a stack of kept elements denotes; `.` when nothing is kept. -/
def renderStack (st : List (List Char)) : String :=
  if joinRev st = [] then "." else ⟨joinRev st⟩

/-- The directory `WriteSource` joins a name to. -/
def destDir (name : String) : String :=
  if hasSuffix name ".spec" then "SPECS" else "SOURCES"

/-- The name, resolved against the directory, still starts with the directory
and has at least one element after it. -/
def staysUnder (dir name : String) : Bool :=
  match (resolve (splitSep name.data) [dir.data]).reverse with
  | d :: _ :: _ => decide (d = dir.data)
  | _ => false

/-- Reading the elements of a name from the left with the number of elements
of the name currently kept: no `..` element occurs when none is kept, and at
the end at least one is kept. -/
def neverClimbs : List (List Char) → Nat → Bool
  | [], depth => decide (0 < depth)
  | e :: es, depth =>
    if e = [] ∨ e = ['.'] then neverClimbs es depth
    else if e = ['.', '.'] then
      match depth with
      | 0 => false
      | d + 1 => neverClimbs es d
    else neverClimbs es (depth + 1)

/-- The elements after the first one, for a path cut at its first separator. -/
def tailElems : List Char → List (List Char)
  | [] => []
  | _ :: d => splitSep d

/-! ## Concrete packages -/

/-- The package of the scenario: `foo.spec`, `foo-1.0.tar.gz`, `bar.patch`. -/
def scenarioPkg : PackageFile :=
  ⟨["foo-1.0.tar.gz"], ["bar.patch"], [⟨"foo.spec", 0o644⟩, ⟨"bar.patch", 0o600⟩]⟩

/-- The archive members of the scenario. -/
def scenarioMembers : List (String × String) :=
  [("foo.spec", "Name: foo"), ("foo-1.0.tar.gz", "tarball"), ("bar.patch", "diff")]

/-- The hash accumulator of the scenario. -/
def scenarioHash : HashState := ⟨"sha256"⟩

/-- What `RetrieveSource` returns on the scenario for version 9. -/
def scenarioMd : modeData :=
  ⟨[FsEvent.mkdirAll "SPECS" 0o755, FsEvent.mkdirAll "SOURCES" 0o755], scenarioPkg,
    scenarioMembers, ["rocky9"], [⟨"foo-1.0.tar.gz", scenarioHash⟩]⟩

/-- The calls a run of `WriteSource` makes on the scenario, the entries visited
in archive order. -/
def scenarioTrace : List FsEvent :=
  [FsEvent.mkdirAll "SPECS" 0o755, FsEvent.mkdirAll "SOURCES" 0o755,
    FsEvent.openFile "SPECS/foo.spec" openFlags 0o644,
    FsEvent.write "SPECS/foo.spec" "Name: foo",
    FsEvent.close "SPECS/foo.spec",
    FsEvent.add "SPECS/foo.spec",
    FsEvent.openFile "SOURCES/foo-1.0.tar.gz" openFlags 0o666,
    FsEvent.write "SOURCES/foo-1.0.tar.gz" "tarball",
    FsEvent.close "SOURCES/foo-1.0.tar.gz",
    FsEvent.openFile "SOURCES/bar.patch" openFlags 0o600,
    FsEvent.write "SOURCES/bar.patch" "diff",
    FsEvent.close "SOURCES/bar.patch",
    FsEvent.add "SOURCES/bar.patch",
    FsEvent.create ".gitignore",
    FsEvent.write ".gitignore" "SOURCES/&\x7bfoo-1.0.tar.gz sha256\x7d\n",
    FsEvent.close ".gitignore"]

/-- The scenario with the accumulator of the excluded source in another state
(some bytes already written to it): the same names, another `%s` text. -/
def scenarioMdFed : modeData :=
  ⟨[FsEvent.mkdirAll "SPECS" 0o755, FsEvent.mkdirAll "SOURCES" 0o755], scenarioPkg,
    scenarioMembers, ["rocky9"], [⟨"foo-1.0.tar.gz", ⟨"sha256+7"⟩⟩]⟩

/-- A package declaring a source with `.tar` in the middle of its name. -/
def tarPkg : PackageFile :=
  ⟨["a.tar.gz", "b.patch", "c.tar-notes.txt", "a.tar.gz", "d.tgz"], ["e.tar.patch"], []⟩

/-- What `RetrieveSource` returns on `tarPkg` with an empty archive. -/
def tarMd : modeData :=
  ⟨[FsEvent.mkdirAll "SPECS" 0o755, FsEvent.mkdirAll "SOURCES" 0o755], tarPkg, [], ["rocky8"],
    [⟨"a.tar.gz", scenarioHash⟩, ⟨"c.tar-notes.txt", scenarioHash⟩, ⟨"a.tar.gz", scenarioHash⟩]⟩

/-- An archive holding the excluded source `foo.tar` and a second member
`./foo.tar`, which is not excluded and has the same destination. -/
def collidingMd : modeData :=
  ⟨[FsEvent.mkdirAll "SPECS" 0o755, FsEvent.mkdirAll "SOURCES" 0o755],
    ⟨["foo.tar"], [], []⟩, [("foo.tar", "A"), ("./foo.tar", "B")], ["rocky9"],
    [⟨"foo.tar", scenarioHash⟩]⟩

/-! ## Lemmas on the string functions -/

theorem containsChars_iff (sub s : List Char) : containsChars sub s = true ↔ sub <:+: s := by
  induction s with
  | nil => simp [containsChars]
  | cons c t ih =>
    rw [containsChars, Bool.or_eq_true, ih, List.infix_cons_iff, List.isPrefixOf_iff_prefix]

theorem contains_iff (s sub : String) :
    contains s sub = true ↔ ∃ pre post : String, s = pre ++ sub ++ post := by
  unfold contains
  rw [containsChars_iff]
  constructor
  · rintro ⟨a, b, h⟩
    refine ⟨⟨a⟩, ⟨b⟩, ?_⟩
    apply String.ext
    simp [String.data_append, h]
  · rintro ⟨pre, post, h⟩
    refine ⟨pre.data, post.data, ?_⟩
    rw [h]
    simp [String.data_append]

theorem classifySources_eq (newHash : HashState) (sources : List String)
    (acc : List ignoredSource) :
    classifySources newHash sources acc
      = acc ++ (sources.filter (fun s => contains s ".tar")).map (fun s => ⟨s, newHash⟩) := by
  induction sources generalizing acc with
  | nil => simp [classifySources]
  | cons s rest ih =>
    by_cases h : contains s ".tar" = true
    · simp [classifySources, h, ih]
    · simp [classifySources, h, ih]

theorem RetrieveSource_some (pd : ProcessData) (cpio : Option (List CpioStep))
    (pkg : Option PackageFile) (newHash : HashState) (md : modeData)
    (h : RetrieveSource pd cpio pkg newHash = some md) :
    ∃ r fileWrites rpmFile, cpio = some r ∧ readArchive r [] = some fileWrites ∧
      pkg = some rpmFile ∧
      md = ⟨[FsEvent.mkdirAll "SPECS" 0o755, FsEvent.mkdirAll "SOURCES" 0o755], rpmFile,
        fileWrites, ["rocky" ++ fmtD pd.Version], classifySources newHash rpmFile.Source []⟩ := by
  unfold RetrieveSource at h
  cases cpio with
  | none => simp at h
  | some r =>
    cases hr : readArchive r [] with
    | none => simp [hr] at h
    | some fw =>
      cases pkg with
      | none => simp [hr] at h
      | some rpmFile =>
        simp only [hr] at h
        exact ⟨r, fw, rpmFile, rfl, hr, rfl, (Option.some.inj h).symm⟩

/-! ## Lemmas on the `%d` verb -/

theorem digit_toNat (k : Nat) (hk : k < 10) : (Char.ofNat (48 + k)).toNat - 48 = k := by
  interval_cases k <;> rfl

theorem digit_isDigit (k : Nat) (hk : k < 10) : (Char.ofNat (48 + k)).isDigit = true := by
  interval_cases k <;> rfl

theorem fmtDigits_value (fuel u : Nat) (acc : List Char) (h : u < fuel) :
    (fmtDigits fuel u acc).foldl (fun n c => 10 * n + (c.toNat - 48)) 0
      = acc.foldl (fun n c => 10 * n + (c.toNat - 48)) u := by
  induction fuel generalizing u acc with
  | zero => omega
  | succ fuel ih =>
    unfold fmtDigits
    by_cases hu : 10 ≤ u
    · rw [if_pos hu, ih _ _ (by omega), List.foldl_cons, digit_toNat _ (by omega)]
      congr 1
      omega
    · rw [if_neg hu, List.foldl_cons, digit_toNat _ (by omega)]
      simp

theorem fmtDigits_isDigit (fuel u : Nat) (acc : List Char)
    (hacc : ∀ c ∈ acc, c.isDigit = true) :
    ∀ c ∈ fmtDigits fuel u acc, c.isDigit = true := by
  induction fuel generalizing u acc with
  | zero => simpa [fmtDigits] using hacc
  | succ fuel ih =>
    unfold fmtDigits
    by_cases hu : 10 ≤ u
    · rw [if_pos hu]
      apply ih
      intro c hc
      rcases List.mem_cons.1 hc with rfl | hc
      · exact digit_isDigit _ (by omega)
      · exact hacc c hc
    · rw [if_neg hu]
      intro c hc
      rcases List.mem_cons.1 hc with rfl | hc
      · exact digit_isDigit _ (by omega)
      · exact hacc c hc

/-! ## Lemmas on the decoded mapping -/

theorem mapLoad_mapStore (m : List (String × String)) (k v n : String) :
    mapLoad (mapStore m k v) n = if k = n then some v else mapLoad m n := by
  induction m with
  | nil => simp [mapStore, mapLoad]
  | cons e m ih =>
    obtain ⟨k', v'⟩ := e
    by_cases h : k' = k
    · subst h
      by_cases hn : k' = n <;> simp [mapStore, mapLoad, hn]
    · by_cases hn : k' = n
      · subst hn
        have : ¬ k = k' := fun e => h e.symm
        simp [mapStore, mapLoad, h, this]
      · simp [mapStore, mapLoad, h, hn, ih]

theorem mem_keys_mapStore (m : List (String × String)) (k v n : String) :
    n ∈ (mapStore m k v).map Prod.fst ↔ n = k ∨ n ∈ m.map Prod.fst := by
  induction m with
  | nil => simp [mapStore]
  | cons e m ih =>
    obtain ⟨k', v'⟩ := e
    by_cases h : k' = k
    · subst h
      simp [mapStore]
    · simp only [mapStore, h, if_false, List.map_cons, List.mem_cons, ih]
      tauto

theorem nodup_keys_mapStore (m : List (String × String)) (k v : String)
    (h : (m.map Prod.fst).Nodup) : ((mapStore m k v).map Prod.fst).Nodup := by
  induction m with
  | nil => simp [mapStore]
  | cons e m ih =>
    obtain ⟨k', v'⟩ := e
    rw [List.map_cons, List.nodup_cons] at h
    by_cases hk : k' = k
    · subst hk
      simpa [mapStore] using h
    · simp only [mapStore, hk, if_false, List.map_cons, List.nodup_cons]
      refine ⟨?_, ih h.2⟩
      rw [mem_keys_mapStore]
      rintro (e | e)
      · exact hk e
      · exact h.1 e

theorem mem_iff_mapLoad (m : List (String × String)) (h : (m.map Prod.fst).Nodup)
    (n c : String) : (n, c) ∈ m ↔ mapLoad m n = some c := by
  induction m with
  | nil => simp [mapLoad]
  | cons e m ih =>
    obtain ⟨k, v⟩ := e
    rw [List.map_cons, List.nodup_cons] at h
    by_cases hk : k = n
    · subst hk
      simp only [mapLoad, if_true, List.mem_cons, Prod.mk.injEq, true_and, Option.some.injEq]
      constructor
      · rintro (e | hm)
        · exact e.symm
        · exact absurd (List.mem_map_of_mem Prod.fst hm) h.1
      · intro e
        exact Or.inl e.symm
    · have hk2 : ¬ n = k := fun e => hk e.symm
      simp [mapLoad, hk, hk2, ih h.2]

theorem readArchive_members (members : List (String × String)) (m0 : List (String × String)) :
    ∃ m, readArchive (members.map (fun e => CpioStep.member e.1 e.2)) m0 = some m ∧
      ((m0.map Prod.fst).Nodup → (m.map Prod.fst).Nodup) ∧
      (∀ n, n ∈ m.map Prod.fst ↔ n ∈ m0.map Prod.fst ∨ n ∈ members.map Prod.fst) ∧
      (∀ n, mapLoad m n =
        match members.reverse.find? (fun e => e.1 = n) with
        | some e => some e.2
        | none => mapLoad m0 n) := by
  induction members generalizing m0 with
  | nil =>
    exact ⟨m0, rfl, id, by simp, by simp⟩
  | cons e rest ih =>
    obtain ⟨m, hm, hnd, hkeys, hload⟩ := ih (mapStore m0 e.1 e.2)
    refine ⟨m, by simpa [readArchive] using hm, ?_, ?_, ?_⟩
    · intro h0
      exact hnd (nodup_keys_mapStore _ _ _ h0)
    · intro n
      rw [hkeys, mem_keys_mapStore]
      simp only [List.map_cons, List.mem_cons]
      tauto
    · intro n
      rw [hload, List.reverse_cons, List.find?_append]
      cases hf : rest.reverse.find? (fun e => decide (e.1 = n)) with
      | some x => simp
      | none =>
        simp only [Option.none_or, mapLoad_mapStore]
        by_cases hn : e.1 = n <;> simp [List.find?, hn]

/-! ## Lemmas on the permission loop -/

theorem modeLoop_eq (files : List FileInfo) (fileName : String) (mode : Nat) :
    modeLoop files fileName mode =
      match (files.filter (fun f => f.Name = fileName)).getLast? with
      | some f => f.Mode
      | none => mode := by
  induction files generalizing mode with
  | nil => simp [modeLoop]
  | cons f rest ih =>
    by_cases h : f.Name = fileName
    · rw [modeLoop, if_pos h, ih]
      simp only [List.filter_cons, h, decide_True, if_true]
      cases hr : List.filter (fun f => decide (f.Name = fileName)) rest with
      | nil => simp
      | cons g gs => simp [List.getLast?_cons_cons, List.getLast?_eq_getLast _ (List.cons_ne_nil g gs)]
    · rw [modeLoop, if_neg h, ih]
      simp [List.filter_cons, h]

/-! ## Lemmas on the worktree calls -/

theorem writtenPaths_append (a b : List FsEvent) :
    writtenPaths (a ++ b) = writtenPaths a ++ writtenPaths b := by
  induction a with
  | nil => rfl
  | cons e a ih => cases e <;> simp [writtenPaths, ih]

theorem stagedPaths_append (a b : List FsEvent) :
    stagedPaths (a ++ b) = stagedPaths a ++ stagedPaths b := by
  induction a with
  | nil => rfl
  | cons e a ih => cases e <;> simp [stagedPaths, ih]

theorem ignoredContains_iff (a : List ignoredSource) (b : String) :
    ignoredContains a b = true ↔ ∃ i ∈ a, i.name = b := by
  induction a with
  | nil => simp [ignoredContains]
  | cons val a ih =>
    by_cases h : val.name = b
    · simp [ignoredContains, h]
    · simp [ignoredContains, h, ih]

theorem writeEntry_some (ft : Faults) (md : modeData) (tr : List FsEvent)
    (fileName contents : String) (tr1 : List FsEvent)
    (h : writeEntry ft md tr fileName contents = some tr1) :
    tr1 = tr ++ entryEvents md (fileName, contents) := by
  unfold writeEntry at h
  simp only at h
  split_ifs at h with h1 h2 h3 h4
  · rw [← Option.some.inj h]
    simp [entryEvents, h3]
  · rw [← Option.some.inj h]
    simp [entryEvents, h3]

theorem writeEntries_some (ft : Faults) (md : modeData) (es : List (String × String))
    (tr tr1 : List FsEvent) (h : writeEntries ft md es tr = some tr1) :
    tr1 = tr ++ es.flatMap (entryEvents md) := by
  induction es generalizing tr with
  | nil =>
    simp only [writeEntries] at h
    simp [← Option.some.inj h]
  | cons e es ih =>
    obtain ⟨fileName, contents⟩ := e
    simp only [writeEntries] at h
    cases he : writeEntry ft md tr fileName contents with
    | none => simp [he] at h
    | some tr2 =>
      simp only [he] at h
      rw [ih _ h, writeEntry_some ft md tr fileName contents tr2 he]
      simp

theorem writeIgnoreLines_some (ft : Faults) (l : List ignoredSource) (tr tr1 : List FsEvent)
    (h : writeIgnoreLines ft l tr = some tr1) :
    tr1 = tr ++ l.map (fun i => FsEvent.write ".gitignore" (ignoreLine i)) := by
  induction l generalizing tr with
  | nil =>
    simp only [writeIgnoreLines] at h
    simp [← Option.some.inj h]
  | cons i l ih =>
    simp only [writeIgnoreLines] at h
    split_ifs at h with h1
    rw [ih _ h]
    simp [ignoreLine]

theorem WriteSource_some (ft : Faults) (md : modeData) (order : List (String × String))
    (tr : List FsEvent) (h : WriteSource ft md order = some tr) :
    tr = md.worktree ++ order.flatMap (entryEvents md) ++ ignoreEvents md := by
  unfold WriteSource at h
  cases h1 : writeEntries ft md order md.worktree with
  | none => simp [h1] at h
  | some t1 =>
    simp only [h1] at h
    split_ifs at h with h2
    cases h3 : writeIgnoreLines ft md.sourcesToIgnore (t1 ++ [FsEvent.create ".gitignore"]) with
    | none => simp [h3] at h
    | some t2 =>
      simp only [h3] at h
      split_ifs at h with h4
      rw [← Option.some.inj h, writeIgnoreLines_some _ _ _ _ h3, writeEntries_some _ _ _ _ _ h1]
      simp [ignoreEvents]

theorem writeEntries_noFaults (md : modeData) (es : List (String × String))
    (tr : List FsEvent) :
    writeEntries noFaults md es tr = some (tr ++ es.flatMap (entryEvents md)) := by
  induction es generalizing tr with
  | nil => simp [writeEntries]
  | cons e es ih =>
    obtain ⟨fileName, contents⟩ := e
    have he : writeEntry noFaults md tr fileName contents
        = some (tr ++ entryEvents md (fileName, contents)) := by
      unfold writeEntry
      by_cases h3 : ignoredContains md.sourcesToIgnore fileName = true
      · simp [noFaults, entryEvents, h3]
      · simp [noFaults, entryEvents, h3]
    simp only [writeEntries, he, ih]
    simp

theorem writeIgnoreLines_noFaults (l : List ignoredSource) (tr : List FsEvent) :
    writeIgnoreLines noFaults l tr
      = some (tr ++ l.map (fun i => FsEvent.write ".gitignore" (ignoreLine i))) := by
  induction l generalizing tr with
  | nil => simp [writeIgnoreLines]
  | cons i l ih =>
    have : noFaults.write tr ".gitignore" ("SOURCES/" ++ fmtS i ++ "\n") = false := rfl
    simp only [writeIgnoreLines, this, ih]
    simp [ignoreLine]

theorem WriteSource_noFaults (md : modeData) (order : List (String × String)) :
    WriteSource noFaults md order
      = some (md.worktree ++ order.flatMap (entryEvents md) ++ ignoreEvents md) := by
  unfold WriteSource
  simp only [writeEntries_noFaults, writeIgnoreLines_noFaults]
  simp [noFaults, ignoreEvents]

theorem entry_segment (md : modeData) (order : List (String × String)) (e : String × String)
    (he : e ∈ order) (tr : List FsEvent)
    (h : tr = md.worktree ++ order.flatMap (entryEvents md) ++ ignoreEvents md) :
    ∃ pre post, tr = pre ++ entryEvents md e ++ post := by
  obtain ⟨l1, l2, hl⟩ := List.append_of_mem he
  refine ⟨md.worktree ++ l1.flatMap (entryEvents md),
    l2.flatMap (entryEvents md) ++ ignoreEvents md, ?_⟩
  rw [h, hl]
  simp

theorem writtenPaths_entryEvents (md : modeData) (e : String × String) :
    writtenPaths (entryEvents md e) = [newPath e.1] := by
  unfold entryEvents
  split_ifs <;> simp [writtenPaths]

theorem stagedPaths_entryEvents (md : modeData) (e : String × String) :
    stagedPaths (entryEvents md e)
      = if ignoredContains md.sourcesToIgnore e.1 then [] else [newPath e.1] := by
  unfold entryEvents
  split_ifs <;> simp [stagedPaths]

theorem writtenPaths_flatMap (md : modeData) (es : List (String × String)) :
    writtenPaths (es.flatMap (entryEvents md)) = es.map (fun e => newPath e.1) := by
  induction es with
  | nil => rfl
  | cons e es ih => simp [writtenPaths_append, writtenPaths_entryEvents, ih]

theorem stagedPaths_flatMap (md : modeData) (es : List (String × String)) :
    stagedPaths (es.flatMap (entryEvents md))
      = (es.filter (fun e => !ignoredContains md.sourcesToIgnore e.1)).map
          (fun e => newPath e.1) := by
  induction es with
  | nil => rfl
  | cons e es ih =>
    by_cases h : ignoredContains md.sourcesToIgnore e.1 = true
    · simp [stagedPaths_append, stagedPaths_entryEvents, ih, h]
    · simp [stagedPaths_append, stagedPaths_entryEvents, ih, h]

theorem stagedPaths_ignoreEvents (md : modeData) : stagedPaths (ignoreEvents md) = [] := by
  have e : ignoreEvents md = [FsEvent.create ".gitignore"]
      ++ md.sourcesToIgnore.map (fun i => FsEvent.write ".gitignore" (ignoreLine i))
      ++ [FsEvent.close ".gitignore"] := by simp [ignoreEvents]
  rw [e, stagedPaths_append, stagedPaths_append]
  have : ∀ l : List ignoredSource,
      stagedPaths (l.map (fun i => FsEvent.write ".gitignore" (ignoreLine i))) = [] := by
    intro l
    induction l with
    | nil => rfl
    | cons i l ih => simpa [stagedPaths] using ih
  simp [this, stagedPaths]

theorem writtenPaths_ignoreEvents (md : modeData) :
    writtenPaths (ignoreEvents md) = md.sourcesToIgnore.map (fun _ => ".gitignore") := by
  have e : ignoreEvents md = [FsEvent.create ".gitignore"]
      ++ md.sourcesToIgnore.map (fun i => FsEvent.write ".gitignore" (ignoreLine i))
      ++ [FsEvent.close ".gitignore"] := by simp [ignoreEvents]
  rw [e, writtenPaths_append, writtenPaths_append]
  have : ∀ l : List ignoredSource,
      writtenPaths (l.map (fun i => FsEvent.write ".gitignore" (ignoreLine i)))
        = l.map (fun _ => ".gitignore") := by
    intro l
    induction l with
    | nil => rfl
    | cons i l ih => simpa [writtenPaths] using ih
  simp [this, writtenPaths]

theorem fileContent_append (a b : List FsEvent) (p : String) :
    fileContent (a ++ b) p = b.foldl (applyEvent p) (fileContent a p) := by
  simp [fileContent, List.foldl_append]

theorem foldl_ignoreLines (l : List ignoredSource) (c : String) :
    (l.map (fun i => FsEvent.write ".gitignore" (ignoreLine i))).foldl
        (applyEvent ".gitignore") (some c)
      = some (c ++ concatLines (l.map ignoreLine)) := by
  induction l generalizing c with
  | nil => simp [concatLines]
  | cons i l ih =>
    simp only [List.map_cons, List.foldl_cons, applyEvent, if_true, Option.map_some', ih,
      concatLines, String.append_assoc]

theorem fileContent_gitignore (md : modeData) (a : List FsEvent) :
    fileContent (a ++ ignoreEvents md) ".gitignore"
      = some (concatLines (md.sourcesToIgnore.map ignoreLine)) := by
  have e : ignoreEvents md = [FsEvent.create ".gitignore"]
      ++ (md.sourcesToIgnore.map (fun i => FsEvent.write ".gitignore" (ignoreLine i))
      ++ [FsEvent.close ".gitignore"]) := by simp [ignoreEvents]
  rw [e, fileContent_append, List.foldl_append, List.foldl_append]
  simp only [List.foldl_cons, List.foldl_nil, applyEvent, if_true, foldl_ignoreLines]
  congr 1

theorem ignoreLine_ne (i : ignoredSource) : ignoreLine i ≠ "SOURCES/" ++ i.name ++ "\n" := by
  intro h
  have h2 := congrArg String.length h
  have e1 : " ".length = 1 := rfl
  have e2 : "\x7d".length = 1 := rfl
  simp [ignoreLine, fmtS, String.length_append] at h2
  omega

/-! ## Lemmas on the path functions -/

theorem extScan_eq_iff (r acc s : List Char) :
    extScan r acc = '.' :: s ↔
      ∃ pre rest, r = pre ++ '.' :: rest ∧ (∀ c ∈ pre, c ≠ '/' ∧ c ≠ '.')
        ∧ s = pre.reverse ++ acc := by
  induction r generalizing acc with
  | nil => simp [extScan]
  | cons c r ih =>
    unfold extScan
    by_cases hs : isSep c = true
    · have hc : c = '/' := by simpa [isSep] using hs
      rw [if_pos hs]
      constructor
      · intro h
        cases h
      · rintro ⟨pre, rest, hr, hpre, _⟩
        cases pre with
        | nil =>
          simp only [List.nil_append, List.cons.injEq] at hr
          rw [hc] at hr
          exact absurd hr.1 (by decide)
        | cons d pre =>
          simp only [List.cons_append, List.cons.injEq] at hr
          exact absurd (hr.1.symm.trans hc) (hpre d (List.mem_cons_self _ _)).1
    · rw [if_neg hs]
      have hc : c ≠ '/' := by simpa [isSep] using hs
      by_cases hd : c = '.'
      · rw [if_pos hd]
        constructor
        · intro h
          refine ⟨[], r, by simp [hd], by simp, ?_⟩
          simpa using (List.cons.inj h).2.symm
        · rintro ⟨pre, rest, hr, hpre, hsv⟩
          cases pre with
          | nil => simp [hsv]
          | cons d pre =>
            simp only [List.cons_append, List.cons.injEq] at hr
            exact absurd (hr.1.symm.trans hd) (hpre d (List.mem_cons_self _ _)).2
      · rw [if_neg hd, ih]
        constructor
        · rintro ⟨pre, rest, hr, hpre, hsv⟩
          refine ⟨c :: pre, rest, by simp [hr], ?_, by simp [hsv]⟩
          intro x hx
          rcases List.mem_cons.1 hx with rfl | hx
          · exact ⟨hc, hd⟩
          · exact hpre x hx
        · rintro ⟨pre, rest, hr, hpre, hsv⟩
          cases pre with
          | nil =>
            simp only [List.nil_append, List.cons.injEq] at hr
            exact absurd hr.1 hd
          | cons d pre =>
            simp only [List.cons_append, List.cons.injEq] at hr
            refine ⟨pre, rest, hr.2, fun x hx => hpre x (List.mem_cons_of_mem _ hx), ?_⟩
            rw [hsv, hr.1]
            simp

theorem Ext_spec_iff (name : String) : Ext name = ".spec" ↔ hasSuffix name ".spec" = true := by
  unfold Ext hasSuffix
  rw [List.isSuffixOf_iff_suffix]
  have e : (".spec" : String).data = ['.', 's', 'p', 'e', 'c'] := rfl
  rw [e]
  constructor
  · intro h
    have h2 : extScan name.data.reverse [] = '.' :: ['s', 'p', 'e', 'c'] := by
      have := congrArg String.data h
      simpa using this
    rw [extScan_eq_iff] at h2
    obtain ⟨pre, rest, hr, _, hsv⟩ := h2
    refine ⟨rest.reverse, ?_⟩
    have h3 : name.data = (pre ++ '.' :: rest).reverse := by rw [← hr, List.reverse_reverse]
    rw [h3]
    simp only [List.append_nil] at hsv
    simp [← hsv]
  · rintro ⟨t, ht⟩
    have h2 : extScan name.data.reverse [] = '.' :: ['s', 'p', 'e', 'c'] := by
      rw [extScan_eq_iff]
      refine ⟨['c', 'e', 'p', 's'], t.reverse, ?_, by decide, by simp⟩
      rw [← ht]
      simp
    apply String.ext
    rw [h2]

theorem cleanLoop_nil (rooted : Bool) (fuel : Nat) (out : List Char) (dd : Nat) :
    cleanLoop rooted fuel [] out dd = out := by
  cases fuel <;> rfl

theorem splitSep_sep (c : Char) (t : List Char) (h : isSep c = true) :
    splitSep (c :: t) = [] :: splitSep t := by
  simp [splitSep, h]

theorem splitSep_eq (l : List Char) :
    splitSep l = l.takeWhile (fun x => !isSep x)
      :: tailElems (l.dropWhile (fun x => !isSep x)) := by
  induction l with
  | nil => rfl
  | cons c t ih =>
    by_cases h : isSep c = true
    · simp [splitSep, h, tailElems]
    · simp only [splitSep, h, if_false, ih, Bool.false_eq_true]
      simp [List.takeWhile, List.dropWhile, h]

theorem dropWhile_notSep (l : List Char) :
    l.dropWhile (fun x => !isSep x) = [] ∨
      ∃ s d, l.dropWhile (fun x => !isSep x) = s :: d ∧ isSep s = true := by
  induction l with
  | nil => exact Or.inl rfl
  | cons c t ih =>
    by_cases h : isSep c = true
    · exact Or.inr ⟨c, t, by simp [List.dropWhile, h], h⟩
    · have : (c :: t).dropWhile (fun x => !isSep x) = t.dropWhile (fun x => !isSep x) := by
        simp [List.dropWhile, h]
      rw [this]
      exact ih

theorem length_dropWhile_le (l : List Char) :
    (l.dropWhile (fun x => !isSep x)).length ≤ l.length := by
  induction l with
  | nil => simp
  | cons c t ih =>
    by_cases h : isSep c = true
    · simp [List.dropWhile, h]
    · simp only [List.dropWhile, h, Bool.not_false, List.length_cons]
      omega

theorem cleanLoop_fuel (rooted : Bool) (fuel : Nat) :
    ∀ (rest out : List Char) (dd : Nat), rest.length ≤ fuel →
      cleanLoop rooted fuel rest out dd = cleanLoop rooted rest.length rest out dd := by
  induction fuel using Nat.strong_induction_on with
  | _ fuel ih =>
    intro rest out dd h
    cases rest with
    | nil => rw [cleanLoop_nil, cleanLoop_nil]
    | cons c t =>
      cases fuel with
      | zero => simp at h
      | succ f =>
        have hft : t.length ≤ f := by simpa using h
        have key : ∀ (X o : List Char) (d : Nat), X.length ≤ t.length →
            cleanLoop rooted f X o d = cleanLoop rooted t.length X o d := by
          intro X o d hX
          rw [ih f (Nat.lt_succ_self f) X o d (hX.trans hft),
            ih t.length (Nat.lt_succ_of_le hft) X o d hX]
        have hdw : ((c :: t).dropWhile (fun x => !isSep x)).length ≤ t.length ∨ isSep c = true := by
          by_cases hs : isSep c = true
          · exact Or.inr hs
          · left
            have : (c :: t).dropWhile (fun x => !isSep x) = t.dropWhile (fun x => !isSep x) := by
              simp [List.dropWhile, hs]
            rw [this]
            exact length_dropWhile_le t
        simp only [List.length_cons, cleanLoop]
        have hdw2 : isSep c = false →
            ((c :: t).dropWhile (fun x => !isSep x)).length ≤ t.length := by
          intro hs
          rcases hdw with hdw | hdw
          · exact hdw
          · rw [hs] at hdw
            cases hdw
        split_ifs with h1
        all_goals first
          | exact key _ _ _ (le_refl _)
          | exact key _ _ _ (by simp)
          | exact key _ _ _ (hdw2 (by simpa using h1))

theorem takeWhile_dir (dir n : List Char) (h : ∀ c ∈ dir, isSep c = false) :
    (dir ++ '/' :: n).takeWhile (fun x => !isSep x) = dir
      ∧ (dir ++ '/' :: n).dropWhile (fun x => !isSep x) = '/' :: n := by
  induction dir with
  | nil => simp [List.takeWhile, List.dropWhile, isSep]
  | cons d dir ih =>
    have hd : isSep d = false := h d (List.mem_cons_self _ _)
    have ih2 := ih (fun c hc => h c (List.mem_cons_of_mem _ hc))
    simp [List.takeWhile, List.dropWhile, hd, ih2.1, ih2.2]

theorem joinRev_cons (top : List Char) (st : List (List Char)) (h : st ≠ []) :
    joinRev (top :: st) = joinRev st ++ '/' :: top := by
  cases st with
  | nil => exact absurd rfl h
  | cons b below => rfl

theorem joinRev_ne_nil (st : List (List Char)) (h : st ≠ []) (hne : ∀ e ∈ st, e ≠ []) :
    joinRev st ≠ [] := by
  cases st with
  | nil => exact absurd rfl h
  | cons top below =>
    cases below with
    | nil =>
      simpa [joinRev] using hne top (List.mem_cons_self _ _)
    | cons b below => simp [joinRev]

theorem joinRev_length_le (reals dds : List (List Char)) :
    (joinRev dds).length ≤ (joinRev (reals ++ dds)).length := by
  induction reals with
  | nil => simp
  | cons r reals ih =>
    by_cases h : reals ++ dds = []
    · have hd : dds = [] := (List.append_eq_nil.1 h).2
      subst hd
      simp [joinRev]
    · rw [List.cons_append, joinRev_cons r _ h]
      simp only [List.length_append, List.length_cons]
      omega

theorem joinRev_length_lt (r : List Char) (reals dds : List (List Char)) (hr : r ≠ []) :
    (joinRev dds).length < (joinRev (r :: reals ++ dds)).length := by
  have hpos : 0 < r.length := List.length_pos.2 hr
  by_cases h : reals ++ dds = []
  · have hd : dds = [] := (List.append_eq_nil.1 h).2
    have hre : reals = [] := (List.append_eq_nil.1 h).1
    subst hd
    subst hre
    simpa [joinRev] using hpos
  · have := joinRev_length_le reals dds
    rw [List.cons_append, joinRev_cons r _ h]
    simp only [List.length_append, List.length_cons]
    omega

theorem joinRev_snoc (st : List (List Char)) (a : List Char) :
    joinRev (st ++ [a]) = a ++ st.reverse.flatMap (fun e => '/' :: e) := by
  induction st with
  | nil => simp [joinRev]
  | cons top st ih =>
    rw [List.cons_append, joinRev_cons top _ (by simp), ih]
    simp

theorem backtrack_eq (out : List Char) (dd target : Nat) (hdd : dd ≤ target)
    (hstop : target = 0 ∨ isSep (out.getD target '/') = true ∨ target ≤ dd) :
    ∀ n : Nat, (∀ j, target < j → j ≤ target + n → isSep (out.getD j '/') = false) →
      backtrack out dd (target + n) = target := by
  intro n
  induction n with
  | zero =>
    intro _
    cases target with
    | zero => rfl
    | succ t =>
      rw [Nat.add_zero, backtrack, if_neg]
      rintro ⟨h1, h2⟩
      rcases hstop with h | h | h
      · cases h
      · rw [h] at h2
        cases h2
      · omega
  | succ n ih =>
    intro hmid
    have e : target + (n + 1) = (target + n) + 1 := rfl
    rw [e, backtrack, if_pos ⟨by omega, hmid _ (by omega) (by omega)⟩]
    exact ih (fun j h1 h2 => hmid j h1 (by omega))

theorem getD_mem_sepFree (top : List Char) (i : Nat) (hi : i < top.length)
    (h : ∀ c ∈ top, isSep c = false) : isSep (top.getD i '/') = false := by
  rw [List.getD_eq_getElem top '/' hi]
  exact h _ (List.getElem_mem hi)

theorem backtrack_single (top : List Char) (h : ∀ c ∈ top, isSep c = false) :
    backtrack top 0 (top.length - 1) = 0 := by
  have := backtrack_eq top 0 0 (le_refl 0) (Or.inl rfl) (top.length - 1) (by
    intro j h1 h2
    cases top with
    | nil => simp at h2; omega
    | cons c t =>
      apply getD_mem_sepFree _ _ _ h
      simp at h2 ⊢
      omega)
  simpa using this

theorem backtrack_joined (base top : List Char) (dd : Nat) (hdd : dd ≤ base.length)
    (h : ∀ c ∈ top, isSep c = false) :
    backtrack (base ++ '/' :: top) dd ((base ++ '/' :: top).length - 1) = base.length := by
  have hlen : (base ++ '/' :: top).length - 1 = base.length + top.length := by simp
  rw [hlen]
  apply backtrack_eq _ dd base.length hdd
  · right
    left
    rw [List.getD_eq_getElem?_getD, List.getElem?_append_right (le_refl _), Nat.sub_self]
    simp [isSep]
  · intro j h1 h2
    obtain ⟨i, hi⟩ : ∃ i, j = base.length + (i + 1) := ⟨j - base.length - 1, by omega⟩
    subst hi
    have hj : (base ++ '/' :: top).getD (base.length + (i + 1)) '/' = top.getD i '/' := by
      rw [List.getD_eq_getElem?_getD, List.getD_eq_getElem?_getD,
        List.getElem?_append_right (by omega), Nat.add_sub_cancel_left,
        List.getElem?_cons_succ]
    rw [hj]
    exact getD_mem_sepFree _ _ (by omega) h

theorem boundary_split (pre t : List Char) (hpre : ∀ c ∈ pre, isSep c = false)
    (ht : t = [] ∨ isSep (t.headD 'x') = true) :
    (pre ++ t).takeWhile (fun x => !isSep x) = pre
      ∧ (pre ++ t).dropWhile (fun x => !isSep x) = t := by
  induction pre with
  | nil =>
    rcases ht with ht | ht
    · subst ht
      simp
    · cases t with
      | nil => simp
      | cons s t2 =>
        have hs : isSep s = true := by simpa using ht
        simp [List.takeWhile, List.dropWhile, hs]
  | cons d pre ih =>
    have hd : isSep d = false := hpre d (List.mem_cons_self _ _)
    have ih2 := ih (fun c hc => hpre c (List.mem_cons_of_mem _ hc))
    simp [List.takeWhile, List.dropWhile, hd, ih2.1, ih2.2]

theorem resolve_dropWhile (l : List Char) (st : List (List Char)) :
    resolve (splitSep (l.dropWhile (fun x => !isSep x))) st
      = resolve (tailElems (l.dropWhile (fun x => !isSep x))) st := by
  rcases dropWhile_notSep l with h | ⟨s, d, h, hs⟩
  · rw [h]
    simp [splitSep, tailElems, resolve]
  · rw [h, splitSep_sep s d hs]
    simp [tailElems, resolve]

theorem takeWhile_sepFree (l : List Char) :
    ∀ c ∈ l.takeWhile (fun x => !isSep x), isSep c = false := by
  intro c hc
  have := List.mem_takeWhile_imp hc
  simpa using this

theorem splitSep_sepFree (l : List Char) : ∀ e ∈ splitSep l, ∀ c ∈ e, isSep c = false := by
  induction l using List.recOn with
  | nil =>
    intro e he c hc
    simp [splitSep] at he
    subst he
    cases hc
  | cons a t ih =>
    intro e he
    rw [splitSep_eq] at he
    rcases List.mem_cons.1 he with he | he
    · subst he
      exact takeWhile_sepFree _
    · by_cases hs : isSep a = true
      · have : (a :: t).dropWhile (fun x => !isSep x) = a :: t := by
          simp [List.dropWhile, hs]
        rw [this] at he
        exact ih e he
      · have : (a :: t).dropWhile (fun x => !isSep x) = t.dropWhile (fun x => !isSep x) := by
          simp [List.dropWhile, hs]
        rw [this] at he
        have h2 : e ∈ splitSep t := by
          rw [splitSep_eq]
          exact List.mem_cons_of_mem _ he
        exact ih e h2

theorem takeWhile_eq_nil_boundary (l : List Char)
    (h : l.takeWhile (fun x => !isSep x) = []) : l = [] ∨ isSep (l.headD 'x') = true := by
  cases l with
  | nil => exact Or.inl rfl
  | cons a t =>
    right
    by_cases hs : isSep a = true
    · simpa using hs
    · simp [List.takeWhile, hs] at h

theorem joinRev_replicate_succ (k : Nat) :
    joinRev (List.replicate (k + 1) ['.', '.'])
      = (if 0 < (joinRev (List.replicate k ['.', '.'])).length
          then joinRev (List.replicate k ['.', '.']) ++ ['/']
          else joinRev (List.replicate k ['.', '.'])) ++ ['.', '.'] := by
  cases k with
  | zero => simp [joinRev]
  | succ k =>
    have hne : List.replicate (k + 1) ['.', '.'] ≠ [] := by simp [List.replicate_succ]
    have hpos : 0 < (joinRev (List.replicate (k + 1) ['.', '.'])).length := by
      apply List.length_pos.2
      apply joinRev_ne_nil _ hne
      intro e he
      rw [List.eq_of_mem_replicate he]
      simp
    rw [if_pos hpos, List.replicate_succ, joinRev_cons _ _ hne]
    simp

theorem resolve_dotdot_replicate (es : List (List Char)) (k : Nat) :
    resolve (['.', '.'] :: es) (List.replicate k ['.', '.'])
      = resolve es (List.replicate (k + 1) ['.', '.']) := by
  cases k with
  | zero => simp [resolve]
  | succ k => simp [resolve, List.replicate_succ]

theorem take_backtrack (top : List Char) (below : List (List Char)) (dds : List (List Char))
    (reals : List (List Char)) (hb : below = reals ++ dds)
    (htop : ∀ c ∈ top, isSep c = false) :
    (joinRev (top :: below)).take
        (backtrack (joinRev (top :: below)) (joinRev dds).length
          ((joinRev (top :: below)).length - 1))
      = joinRev below := by
  by_cases h : below = []
  · have hd : dds = [] := by
      rw [h] at hb
      exact (List.append_eq_nil.1 hb.symm).2
    subst hd
    subst h
    simp only [joinRev, List.length_nil]
    rw [backtrack_single top htop]
    rfl
  · rw [joinRev_cons top below h,
      backtrack_joined (joinRev below) top _ (by rw [hb]; exact joinRev_length_le reals dds) htop]
    simp

theorem cleanLoop_resolve (fuel : Nat) :
    ∀ (rest : List Char) (reals : List (List Char)) (k : Nat),
      rest.length ≤ fuel →
      (∀ e ∈ reals, e ≠ ['.', '.'] ∧ e ≠ [] ∧ ∀ c ∈ e, isSep c = false) →
      cleanLoop false fuel rest (joinRev (reals ++ List.replicate k ['.', '.']))
          (joinRev (List.replicate k ['.', '.'])).length
        = joinRev (resolve (splitSep rest) (reals ++ List.replicate k ['.', '.'])) := by
  induction fuel with
  | zero =>
    intro rest reals k hf _
    have : rest = [] := List.length_eq_zero.1 (Nat.le_zero.1 hf)
    subst this
    simp [cleanLoop, splitSep, resolve]
  | succ fuel ih =>
    intro rest reals k hf hre
    cases rest with
    | nil => simp [cleanLoop, splitSep, resolve]
    | cons c t =>
      have hft : t.length ≤ fuel := by simpa using hf
      have hne : ∀ e ∈ reals ++ List.replicate k ['.', '.'], e ≠ [] := by
        intro e he
        rcases List.mem_append.1 he with he | he
        · exact (hre e he).2.1
        · rw [List.eq_of_mem_replicate he]
          simp
      unfold cleanLoop
      by_cases hs : isSep c = true
      · rw [if_pos hs, splitSep_sep c t hs, ih t reals k hft hre]
        simp [resolve]
      · rw [if_neg hs, splitSep_eq (c :: t)]
        have hcut : (c :: t).takeWhile (fun x => !isSep x)
            = c :: t.takeWhile (fun x => !isSep x) := by simp [List.takeWhile, hs]
        have hdrop : (c :: t).dropWhile (fun x => !isSep x)
            = t.dropWhile (fun x => !isSep x) := by simp [List.dropWhile, hs]
        by_cases h1 : c = '.' ∧ (t = [] ∨ isSep (t.headD 'x') = true)
        · rw [if_pos h1]
          obtain ⟨hc, ht⟩ := h1
          subst hc
          have hb := boundary_split ['.'] t (by decide) ht
          have hb1 : ('.' :: t).takeWhile (fun x => !isSep x) = ['.'] := hb.1
          have hb2 : ('.' :: t).dropWhile (fun x => !isSep x) = t := hb.2
          have hr := resolve_dropWhile ('.' :: t) (reals ++ List.replicate k ['.', '.'])
          rw [hb2] at hr
          rw [hb1, hb2, ih t reals k hft hre, hr]
          simp [resolve]
        · rw [if_neg h1]
          by_cases h2 : c = '.' ∧ t.headD 'x' = '.'
              ∧ (t.tail = [] ∨ isSep (t.tail.headD 'x') = true)
          · rw [if_pos h2]
            obtain ⟨hc, hh, htl⟩ := h2
            cases t with
            | nil => simp at hh
            | cons d t2 =>
              have hd : d = '.' := by simpa using hh
              subst hc
              subst hd
              have htl2 : t2 = [] ∨ isSep (t2.headD 'x') = true := by simpa using htl
              have hb := boundary_split ['.', '.'] t2 (by decide) htl2
              have hb1 : ('.' :: '.' :: t2).takeWhile (fun x => !isSep x) = ['.', '.'] := hb.1
              have hb2 : ('.' :: '.' :: t2).dropWhile (fun x => !isSep x) = t2 := hb.2
              have hft2 : t2.length ≤ fuel := by
                simp at hft
                omega
              rw [hb1, hb2]
              simp only [List.tail_cons]
              cases reals with
              | nil =>
                have hr := resolve_dropWhile ('.' :: '.' :: t2)
                  (([] : List (List Char)) ++ List.replicate (k + 1) ['.', '.'])
                rw [hb2] at hr
                have hih := ih t2 [] (k + 1) hft2 (by simp)
                rw [hr] at hih
                simp only [List.nil_append] at hih ⊢
                rw [if_pos trivial, resolve_dotdot_replicate, ← hih, ← joinRev_replicate_succ,
                  if_neg (lt_irrefl _)]
              | cons top reals2 =>
                have htop := hre top (List.mem_cons_self _ _)
                have hre2 : ∀ e ∈ reals2, e ≠ ['.', '.'] ∧ e ≠ [] ∧ ∀ c ∈ e, isSep c = false :=
                  fun e he => hre e (List.mem_cons_of_mem _ he)
                have hr := resolve_dropWhile ('.' :: '.' :: t2)
                  (reals2 ++ List.replicate k ['.', '.'])
                rw [hb2] at hr
                rw [if_pos (joinRev_length_lt top reals2 _ htop.2.1)]
                rw [List.cons_append,
                  take_backtrack top (reals2 ++ List.replicate k ['.', '.'])
                    (List.replicate k ['.', '.']) reals2 rfl htop.2.2,
                  ih t2 reals2 k hft2 hre2, hr]
                simp [resolve, htop.1]
          · rw [if_neg h2]
            have hsf : ∀ x ∈ (c :: t).takeWhile (fun x => !isSep x), isSep x = false :=
              takeWhile_sepFree (c :: t)
            have he1 : (c :: t).takeWhile (fun x => !isSep x) ≠ [] := by
              rw [hcut]
              simp
            have he2 : (c :: t).takeWhile (fun x => !isSep x) ≠ ['.'] := by
              rw [hcut]
              intro h
              have hc : c = '.' := (List.cons.inj h).1
              have htw : t.takeWhile (fun x => !isSep x) = [] := (List.cons.inj h).2
              exact h1 ⟨hc, takeWhile_eq_nil_boundary t htw⟩
            have he3 : (c :: t).takeWhile (fun x => !isSep x) ≠ ['.', '.'] := by
              rw [hcut]
              intro h
              have hc : c = '.' := (List.cons.inj h).1
              have htw : t.takeWhile (fun x => !isSep x) = ['.'] := (List.cons.inj h).2
              cases t with
              | nil => simp at htw
              | cons d t2 =>
                by_cases hds : isSep d = true
                · simp [List.takeWhile, hds] at htw
                · have hcut2 : (d :: t2).takeWhile (fun x => !isSep x)
                      = d :: t2.takeWhile (fun x => !isSep x) := by simp [List.takeWhile, hds]
                  rw [hcut2] at htw
                  have hd : d = '.' := (List.cons.inj htw).1
                  have htw2 := (List.cons.inj htw).2
                  apply h2
                  refine ⟨hc, by simp [hd], ?_⟩
                  simpa using takeWhile_eq_nil_boundary t2 htw2
            have hpush : (if (false = true ∧ (joinRev (reals ++ List.replicate k ['.', '.'])).length ≠ 1)
                  ∨ (false = false ∧ (joinRev (reals ++ List.replicate k ['.', '.'])).length ≠ 0)
                then joinRev (reals ++ List.replicate k ['.', '.']) ++ ['/']
                else joinRev (reals ++ List.replicate k ['.', '.']))
                ++ (c :: t).takeWhile (fun x => !isSep x)
              = joinRev (((c :: t).takeWhile (fun x => !isSep x) :: reals)
                  ++ List.replicate k ['.', '.']) := by
              by_cases hst : reals ++ List.replicate k ['.', '.'] = []
              · rw [List.cons_append, hst]
                simp [joinRev]
              · have hlen : (joinRev (reals ++ List.replicate k ['.', '.'])).length ≠ 0 := by
                  intro h0
                  exact joinRev_ne_nil _ hst hne (List.length_eq_zero.1 h0)
                rw [List.cons_append, joinRev_cons _ _ hst]
                simp [hlen]
            have hr := resolve_dropWhile (c :: t)
              (((c :: t).takeWhile (fun x => !isSep x) :: reals) ++ List.replicate k ['.', '.'])
            simp only [] at hpush ⊢
            rw [hpush, ih _ _ k (by rw [hdrop]; exact (length_dropWhile_le t).trans hft) (by
                intro e he
                rcases List.mem_cons.1 he with he | he
                · subst he
                  exact ⟨he3, he1, hsf⟩
                · exact hre e he), hr]
            simp [resolve, he1, he2, he3]

theorem Clean_relative (path : String) (c : Char) (t : List Char)
    (hp : path.data = c :: t) (hc : isSep c = false) :
    Clean path = renderStack (resolve (splitSep path.data) []) := by
  have h := cleanLoop_resolve path.data.length path.data [] 0 (le_refl _) (by simp)
  simp only [List.replicate_zero, List.append_nil, joinRev, List.length_nil] at h
  unfold Clean renderStack
  rw [if_neg (by rw [hp]; simp)]
  have hr : isSep (path.data.headD 'x') = false := by rw [hp]; simpa using hc
  simp only [hr, Bool.false_eq_true, if_false, h, List.length_eq_zero]

theorem newPath_resolve (name : String) :
    newPath name = renderStack (resolve (splitSep name.data) [(destDir name).data]) := by
  have key : ∀ (dir : String) (d0 : Char) (dt : List Char), dir.data = d0 :: dt →
      (∀ c ∈ d0 :: dt, isSep c = false) → dir.data ≠ ['.'] → dir.data ≠ ['.', '.'] →
      Join [dir, name] = renderStack (resolve (splitSep name.data) [dir.data]) := by
    intro dir d0 dt hdir hns hd1 hd2
    have hne : dir ≠ "" := by
      intro h
      rw [h] at hdir
      cases hdir
    have hdata : (dir ++ "/" ++ name).data = d0 :: (dt ++ '/' :: name.data) := by
      simp [String.data_append, hdir]
    have htd := takeWhile_dir (d0 :: dt) name.data hns
    have hsplit : splitSep (dir ++ "/" ++ name).data = dir.data :: splitSep name.data := by
      rw [hdata, splitSep_eq]
      have e : d0 :: (dt ++ '/' :: name.data) = (d0 :: dt) ++ '/' :: name.data := rfl
      rw [e, htd.1, htd.2, hdir]
      rfl
    simp only [Join, List.dropWhile, hne, decide_False, joinSlash]
    rw [Clean_relative _ d0 _ hdata (hns d0 (List.mem_cons_self _ _)), hsplit]
    have hd0 : dir.data ≠ [] := by rw [hdir]; simp
    simp [resolve, hd0, hd1, hd2]
  unfold newPath destDir
  by_cases h : hasSuffix name ".spec" = true
  · rw [if_pos ((Ext_spec_iff name).2 h), if_pos h]
    exact key "SPECS" 'S' ['P', 'E', 'C', 'S'] rfl (by decide) (by decide) (by decide)
  · rw [if_neg (fun he => h ((Ext_spec_iff name).1 he)), if_neg h]
    exact key "SOURCES" 'S' ['O', 'U', 'R', 'C', 'E', 'S'] rfl (by decide) (by decide)
      (by decide)

theorem resolve_mem (es st : List (List Char)) (x : List Char) (h : x ∈ resolve es st) :
    x ∈ st ∨ x ∈ es := by
  induction es generalizing st with
  | nil => exact Or.inl h
  | cons e es ih =>
    unfold resolve at h
    split_ifs at h with h1 h2
    · rcases ih st h with h | h
      · exact Or.inl h
      · exact Or.inr (List.mem_cons_of_mem _ h)
    · cases st with
      | nil =>
        rcases ih _ h with h | h
        · exact Or.inr (by
            have hx : x = e := by simpa using h
            simp [hx])
        · exact Or.inr (List.mem_cons_of_mem _ h)
      | cons top below =>
        simp only at h
        split_ifs at h with h3
        · rcases ih _ h with h | h
          · rcases List.mem_cons.1 h with h | h
            · exact Or.inr (by simp [h])
            · exact Or.inl h
          · exact Or.inr (List.mem_cons_of_mem _ h)
        · rcases ih _ h with h | h
          · exact Or.inl (List.mem_cons_of_mem _ h)
          · exact Or.inr (List.mem_cons_of_mem _ h)
    · rcases ih _ h with h | h
      · rcases List.mem_cons.1 h with h | h
        · exact Or.inr (by simp [h])
        · exact Or.inl h
      · exact Or.inr (List.mem_cons_of_mem _ h)

theorem prefix_sep_iff (d a rest : List Char) (hd : ∀ c ∈ d, isSep c = false)
    (ha : ∀ c ∈ a, isSep c = false) :
    (d ++ ['/']) <+: (a ++ '/' :: rest) ↔ a = d := by
  constructor
  · rintro ⟨t, ht⟩
    have h1 := (takeWhile_dir d t hd).1
    have h2 := (takeWhile_dir a rest ha).1
    have e : d ++ ['/'] ++ t = d ++ '/' :: t := by simp
    rw [e] at ht
    rw [ht, h2] at h1
    exact h1
  · intro h
    subst h
    exact ⟨rest, by simp⟩

theorem not_prefix_sepFree (d x : List Char) (hx : ∀ c ∈ x, isSep c = false) :
    ¬ (d ++ ['/']) <+: x := by
  rintro ⟨t, ht⟩
  have : '/' ∈ x := by
    rw [← ht]
    simp
  have := hx _ this
  simp [isSep] at this

theorem hasPrefix_renderStack (dir : String) (st : List (List Char))
    (hdir : ∀ c ∈ dir.data, isSep c = false)
    (hst : ∀ e ∈ st, ∀ c ∈ e, isSep c = false) :
    hasPrefix (renderStack st) (dir ++ "/")
      = (match st.reverse with
          | d :: _ :: _ => decide (d = dir.data)
          | _ => false) := by
  have hdata : (dir ++ "/").data = dir.data ++ ['/'] := by simp [String.data_append]
  have hdot : ∀ c ∈ ['.'], isSep c = false := by decide
  unfold hasPrefix
  rw [hdata, Bool.eq_iff_iff, List.isPrefixOf_iff_prefix]
  cases hrev : st.reverse with
  | nil =>
    have hs : st = [] := by simpa using hrev
    subst hs
    simp only [renderStack, joinRev, if_true]
    constructor
    · intro h
      exact absurd h (not_prefix_sepFree _ _ hdot)
    · intro h
      cases h
  | cons a r =>
    cases r with
    | nil =>
      have hs : st = [a] := by
        have := congrArg List.reverse hrev
        simpa using this
      subst hs
      have ha : ∀ c ∈ a, isSep c = false := hst a (List.mem_cons_self _ _)
      simp only [renderStack, joinRev]
      constructor
      · intro h
        exfalso
        split_ifs at h
        · exact not_prefix_sepFree _ _ hdot h
        · exact not_prefix_sepFree _ _ ha h
      · intro h
        cases h
    | cons b r =>
      have hs : st = (b :: r).reverse ++ [a] := by
        have := congrArg List.reverse hrev
        simpa using this
      have ha : ∀ c ∈ a, isSep c = false := hst a (by rw [hs]; simp)
      have hj : joinRev st = a ++ '/' :: (b ++ r.flatMap (fun e => '/' :: e)) := by
        rw [hs, joinRev_snoc]
        simp
      have hne : joinRev st ≠ [] := by rw [hj]; simp
      unfold renderStack
      rw [if_neg hne, hj]
      simp only [decide_eq_true_eq]
      exact prefix_sep_iff _ _ _ hdir ha

theorem neverClimbs_resolve (dir : List Char) (es : List (List Char)) :
    ∀ up : List (List Char), (∀ e ∈ up, e ≠ ['.', '.']) →
      neverClimbs es up.length = true →
      ∃ up2, up2 ≠ [] ∧ resolve es (up ++ [dir]) = up2 ++ [dir] := by
  induction es with
  | nil =>
    intro up _ h
    refine ⟨up, ?_, rfl⟩
    intro hu
    subst hu
    simp [neverClimbs] at h
  | cons e es ih =>
    intro up hup h
    unfold neverClimbs at h
    unfold resolve
    by_cases h1 : e = [] ∨ e = ['.']
    · rw [if_pos h1] at h ⊢
      exact ih up hup h
    · rw [if_neg h1] at h ⊢
      by_cases h2 : e = ['.', '.']
      · rw [if_pos h2] at h ⊢
        cases up with
        | nil => simp at h
        | cons top up2 =>
          have htop : top ≠ ['.', '.'] := hup top (List.mem_cons_self _ _)
          simp only [List.length_cons] at h
          simp only [List.cons_append, htop, if_false]
          exact ih up2 (fun x hx => hup x (List.mem_cons_of_mem _ hx)) h
      · rw [if_neg h2] at h ⊢
        have := ih (e :: up) (by
          intro x hx
          rcases List.mem_cons.1 hx with hx | hx
          · subst hx
            exact h2
          · exact hup x hx) (by simpa using h)
        simpa using this

theorem staysUnder_of_neverClimbs (dir name : String)
    (h : neverClimbs (splitSep name.data) 0 = true) : staysUnder dir name = true := by
  obtain ⟨up, hup, hres⟩ := neverClimbs_resolve dir.data (splitSep name.data) [] (by simp) h
  unfold staysUnder
  simp only [List.nil_append] at hres
  rw [hres]
  cases hr : up.reverse with
  | nil => exact absurd (by simpa using hr) hup
  | cons x r => simp [hr]

theorem hasPrefix_newPath (name : String) :
    hasPrefix (newPath name) (destDir name ++ "/") = staysUnder (destDir name) name := by
  have hdir : ∀ c ∈ (destDir name).data, isSep c = false := by
    unfold destDir
    split_ifs <;> decide
  rw [newPath_resolve, hasPrefix_renderStack _ _ hdir]
  · rfl
  · intro e he
    rcases resolve_mem _ _ _ he with h | h
    · have : e = (destDir name).data := by simpa using h
      rw [this]
      exact hdir
    · exact splitSep_sepFree _ e h

/-! ## The claims -/

/-- C1: the names of the entries of `sourcesToIgnore` built by `RetrieveSource`
are exactly the declared sources containing `.tar` (at any position), in
declared order and with multiplicity; no entry lacks `.tar` in its name, and
the declared patch names have no influence on the result. -/
theorem C1_sourcesToIgnore_is_tar_filter (pd : ProcessData) (cpio : Option (List CpioStep))
    (rpmFile : PackageFile) (newHash : HashState) (md : modeData)
    (h : RetrieveSource pd cpio (some rpmFile) newHash = some md) :
    md.sourcesToIgnore.map (fun i => i.name)
        = rpmFile.Source.filter (fun s => contains s ".tar")
      ∧ (∀ s : String, contains s ".tar" = true ↔ ∃ pre post : String, s = pre ++ ".tar" ++ post)
      ∧ (∀ i ∈ md.sourcesToIgnore, contains i.name ".tar" = true)
      ∧ (∀ s ∈ rpmFile.Source, contains s ".tar" = false →
          ∀ i ∈ md.sourcesToIgnore, i.name ≠ s)
      ∧ (∀ patch : List String,
          (RetrieveSource pd cpio (some ⟨rpmFile.Source, patch, rpmFile.Files⟩) newHash).map
              (fun m => m.sourcesToIgnore) = some md.sourcesToIgnore) := by
  obtain ⟨r, fw, rf, hc, hr, hp, hmd⟩ := RetrieveSource_some _ _ _ _ _ h
  cases Option.some.inj hp
  have hs : md.sourcesToIgnore
      = (rpmFile.Source.filter (fun s => contains s ".tar")).map (fun s => ⟨s, newHash⟩) := by
    rw [hmd, classifySources_eq]
    simp
  have hall : ∀ i ∈ md.sourcesToIgnore, contains i.name ".tar" = true := by
    intro i hi
    rw [hs, List.mem_map] at hi
    obtain ⟨s, hsf, rfl⟩ := hi
    exact (List.mem_filter.1 hsf).2
  refine ⟨?_, fun s => contains_iff s ".tar", hall, ?_, ?_⟩
  · rw [hs, List.map_map]
    simp [Function.comp_def]
  · intro s _ hsn i hi hname
    have := hall i hi
    rw [hname, hsn] at this
    exact Bool.false_ne_true this
  · intro patch
    subst hc
    simp [RetrieveSource, hr, hmd]

/-- C1 witness: a package declaring `a.tar.gz` twice, `b.patch`,
`c.tar-notes.txt` and `d.tgz` as sources, and the patch `e.tar.patch`. -/
theorem C1_sourcesToIgnore_is_tar_filter_witness :
    RetrieveSource ⟨"p.src.rpm", 8⟩ (some []) (some tarPkg) scenarioHash = some tarMd
      ∧ tarMd.sourcesToIgnore.map (fun i => i.name)
          = tarPkg.Source.filter (fun s => contains s ".tar")
      ∧ tarMd.sourcesToIgnore.map (fun i => i.name)
          = ["a.tar.gz", "c.tar-notes.txt", "a.tar.gz"] :=
  ⟨by decide,
    (C1_sourcesToIgnore_is_tar_filter ⟨"p.src.rpm", 8⟩ (some []) tarPkg scenarioHash tarMd
      (by decide)).1,
    by decide⟩

/-- C8: the `branches` list of the `modeData` returned by `RetrieveSource` has
exactly one element, `rocky` followed by the decimal rendering of
`pd.Version` (an optional minus sign, then decimal digits whose value is the
absolute value of the version); for version 9 it is `rocky9`. -/
theorem C8_branch_name (pd : ProcessData) (cpio : Option (List CpioStep))
    (pkg : Option PackageFile) (newHash : HashState) (md : modeData)
    (h : RetrieveSource pd cpio pkg newHash = some md) :
    md.branches = ["rocky" ++ fmtD pd.Version]
      ∧ md.branches.length = 1
      ∧ (∃ digits : List Char,
          (fmtD pd.Version).data = (if pd.Version < 0 then ['-'] else []) ++ digits
          ∧ (∀ c ∈ digits, c.isDigit = true)
          ∧ decimalValue digits = pd.Version.natAbs)
      ∧ (pd.Version = 9 → md.branches = ["rocky9"]) := by
  obtain ⟨r, fw, rf, hc, hr, hp, hmd⟩ := RetrieveSource_some _ _ _ _ _ h
  have hb : md.branches = ["rocky" ++ fmtD pd.Version] := by rw [hmd]
  refine ⟨hb, by rw [hb]; rfl, ?_, ?_⟩
  · refine ⟨fmtDigits (pd.Version.natAbs + 1) pd.Version.natAbs [], ?_, ?_, ?_⟩
    · unfold fmtD
      by_cases hv : pd.Version < 0 <;> simp [hv]
    · exact fmtDigits_isDigit _ _ _ (by simp)
    · unfold decimalValue
      rw [fmtDigits_value _ _ _ (by omega)]
      rfl
  · intro h9
    rw [hb, h9]
    decide

/-- C8 witness: the scenario at version 9 gives the single branch `rocky9`. -/
theorem C8_branch_name_witness :
    RetrieveSource ⟨"foo.src.rpm", 9⟩
        (some (scenarioMembers.map (fun e => CpioStep.member e.1 e.2)))
        (some scenarioPkg) scenarioHash = some scenarioMd
      ∧ scenarioMd.branches = ["rocky9"] :=
  ⟨by decide,
    (C8_branch_name ⟨"foo.src.rpm", 9⟩
      (some (scenarioMembers.map (fun e => CpioStep.member e.1 e.2)))
      (some scenarioPkg) scenarioHash scenarioMd (by decide)).2.2.2 rfl⟩

/-- C10: for every finite sequence of archive members decoded without error up
to end-of-stream, `RetrieveSource` returns a `modeData` whose `fileWrites` has
pairwise distinct keys, has as keys exactly the member names of the sequence,
and maps each name to the content of the last member carrying that name. -/
theorem C10_fileWrites_last_write_wins (pd : ProcessData) (members : List (String × String))
    (rpmFile : PackageFile) (newHash : HashState) :
    ∃ md, RetrieveSource pd (some (members.map (fun e => CpioStep.member e.1 e.2)))
          (some rpmFile) newHash = some md
      ∧ (md.fileWrites.map Prod.fst).Nodup
      ∧ (∀ n, n ∈ md.fileWrites.map Prod.fst ↔ n ∈ members.map Prod.fst)
      ∧ (∀ n, mapLoad md.fileWrites n
          = (members.reverse.find? (fun e => e.1 = n)).map (fun e => e.2))
      ∧ (∀ n c, (n, c) ∈ md.fileWrites ↔ mapLoad md.fileWrites n = some c) := by
  obtain ⟨m, hm, hnd, hkeys, hload⟩ := readArchive_members members []
  have hnd2 : (m.map Prod.fst).Nodup := hnd (by simp)
  refine ⟨⟨[FsEvent.mkdirAll "SPECS" 0o755, FsEvent.mkdirAll "SOURCES" 0o755], rpmFile, m,
    ["rocky" ++ fmtD pd.Version], classifySources newHash rpmFile.Source []⟩, ?_, hnd2, ?_, ?_, ?_⟩
  · simp [RetrieveSource, hm]
  · intro n
    rw [hkeys]
    simp
  · intro n
    rw [hload]
    cases members.reverse.find? (fun e => decide (e.1 = n)) <;> simp [mapLoad]
  · intro n c
    exact mem_iff_mapLoad m hnd2 n c

/-- C3: in a run of `WriteSource` that does not abort, every entry of
`fileWrites` whose name matches no entry of `sourcesToIgnore` has its
destination path among the written paths and among the paths passed to
`worktree.Add`, and the run contains, in this order and next to each other, the
open, the write of the content, the close and the `Add` of that path. -/
theorem C3_non_excluded_written_then_staged (ft : Faults) (md : modeData)
    (order : List (String × String)) (tr : List FsEvent) (name content : String)
    (hperm : order.Perm md.fileWrites)
    (hin : (name, content) ∈ md.fileWrites)
    (hnot : ∀ i ∈ md.sourcesToIgnore, i.name ≠ name)
    (hrun : WriteSource ft md order = some tr) :
    newPath name ∈ writtenPaths tr
      ∧ newPath name ∈ stagedPaths tr
      ∧ ∃ pre post, tr = pre ++
          [FsEvent.openFile (newPath name) openFlags (fileMode md.rpmFile name),
            FsEvent.write (newPath name) content, FsEvent.close (newPath name),
            FsEvent.add (newPath name)] ++ post := by
  have htr := WriteSource_some ft md order tr hrun
  have hmem : (name, content) ∈ order := hperm.mem_iff.2 hin
  have hic : ignoredContains md.sourcesToIgnore name = false := by
    rw [Bool.eq_false_iff, Ne, ignoredContains_iff]
    rintro ⟨i, hi, hn⟩
    exact hnot i hi hn
  obtain ⟨pre, post, hseg⟩ := entry_segment md order (name, content) hmem tr htr
  have hev : entryEvents md (name, content)
      = [FsEvent.openFile (newPath name) openFlags (fileMode md.rpmFile name),
          FsEvent.write (newPath name) content, FsEvent.close (newPath name),
          FsEvent.add (newPath name)] := by
    simp [entryEvents, hic]
  rw [hev] at hseg
  refine ⟨?_, ?_, pre, post, hseg⟩
  · rw [hseg, writtenPaths_append, writtenPaths_append]
    simp [writtenPaths]
  · rw [hseg, stagedPaths_append, stagedPaths_append]
    simp [stagedPaths]

/-- C3 witness: the patch `bar.patch` of the scenario. -/
theorem C3_non_excluded_written_then_staged_witness :
    WriteSource noFaults scenarioMd scenarioMembers = some scenarioTrace
      ∧ "SOURCES/bar.patch" ∈ writtenPaths scenarioTrace
      ∧ "SOURCES/bar.patch" ∈ stagedPaths scenarioTrace :=
  have h := C3_non_excluded_written_then_staged noFaults scenarioMd scenarioMembers
    scenarioTrace "bar.patch" "diff" (List.Perm.refl _) (by decide) (by decide) (by decide)
  ⟨by decide, h.1, h.2.1⟩

/-- C7: in a run of `WriteSource` that does not abort, the mode passed to
`OpenFile` for an entry is `fileMode`: the mode of a metadata file whose name
is exactly the entry name when there is one (the last such file of the list,
hence the one such file when it is unique), and `0666` when there is none. -/
theorem C7_permission_resolution (ft : Faults) (md : modeData)
    (order : List (String × String)) (tr : List FsEvent) (name content : String)
    (hin : (name, content) ∈ order)
    (hrun : WriteSource ft md order = some tr) :
    (∃ pre post, tr = pre ++
        FsEvent.openFile (newPath name) openFlags (fileMode md.rpmFile name)
          :: FsEvent.write (newPath name) content :: post)
      ∧ ((∀ f ∈ md.rpmFile.Files, f.Name ≠ name) → fileMode md.rpmFile name = 0o666)
      ∧ ((∃ f ∈ md.rpmFile.Files, f.Name = name) →
          ∃ f ∈ md.rpmFile.Files, f.Name = name ∧ fileMode md.rpmFile name = f.Mode)
      ∧ (∀ f ∈ md.rpmFile.Files, f.Name = name →
          (∀ g ∈ md.rpmFile.Files, g.Name = name → g.Mode = f.Mode) →
          fileMode md.rpmFile name = f.Mode)
      ∧ fileMode md.rpmFile name =
          (match (md.rpmFile.Files.filter (fun f => f.Name = name)).getLast? with
            | some f => f.Mode
            | none => 0o666) := by
  have htr := WriteSource_some ft md order tr hrun
  obtain ⟨pre, post, hseg⟩ := entry_segment md order (name, content) hin tr htr
  have hlast := modeLoop_eq md.rpmFile.Files name 0o666
  have hsome : ∀ f ∈ md.rpmFile.Files, f.Name = name →
      ∃ g ∈ md.rpmFile.Files, g.Name = name ∧ fileMode md.rpmFile name = g.Mode := by
    intro f hf hn
    have hne : md.rpmFile.Files.filter (fun f => f.Name = name) ≠ [] := by
      intro he
      have : f ∈ md.rpmFile.Files.filter (fun f => f.Name = name) :=
        List.mem_filter.2 ⟨hf, by simpa using hn⟩
      rw [he] at this
      exact List.not_mem_nil _ this
    have hg := List.getLast_mem hne
    rw [List.mem_filter] at hg
    refine ⟨_, hg.1, by simpa using hg.2, ?_⟩
    unfold fileMode
    rw [hlast, List.getLast?_eq_getLast _ hne]
  refine ⟨?_, ?_, ?_, ?_, hlast⟩
  · refine ⟨pre, [FsEvent.close (newPath name)]
      ++ (if ignoredContains md.sourcesToIgnore name then []
          else [FsEvent.add (newPath name)]) ++ post, ?_⟩
    rw [hseg]
    simp [entryEvents]
  · intro hnone
    unfold fileMode
    rw [hlast]
    have : md.rpmFile.Files.filter (fun f => f.Name = name) = [] := by
      rw [List.filter_eq_nil_iff]
      intro f hf
      simpa using hnone f hf
    rw [this]
    rfl
  · rintro ⟨f, hf, hn⟩
    exact hsome f hf hn
  · intro f hf hn hall
    obtain ⟨g, hg, hgn, hgm⟩ := hsome f hf hn
    rw [hgm]
    exact hall g hg hgn

/-- C7 witness: in the scenario `bar.patch` is declared with mode `0600`. -/
theorem C7_permission_resolution_witness :
    WriteSource noFaults scenarioMd scenarioMembers = some scenarioTrace
      ∧ fileMode scenarioMd.rpmFile "bar.patch" = 0o600
      ∧ fileMode scenarioMd.rpmFile "foo-1.0.tar.gz" = 0o666 :=
  have h := C7_permission_resolution noFaults scenarioMd scenarioMembers scenarioTrace
    "bar.patch" "diff" (by decide) (by decide)
  ⟨by decide, h.2.2.2.1 ⟨"bar.patch", 0o600⟩ (by decide) rfl (by decide), by decide⟩

/-- C2, as stated, fails: the archive holds the excluded source `foo.tar` and
a member `./foo.tar`; the second is not excluded, is written to the same
destination `SOURCES/foo.tar`, and that path is passed to `worktree.Add`. -/
theorem C2_counterexample :
    RetrieveSource ⟨"foo.src.rpm", 9⟩
        (some [CpioStep.member "foo.tar" "A", CpioStep.member "./foo.tar" "B"])
        (some ⟨["foo.tar"], [], []⟩) scenarioHash = some collidingMd
      ∧ ("foo.tar", "A") ∈ collidingMd.fileWrites
      ∧ (∃ i ∈ collidingMd.sourcesToIgnore, i.name = "foo.tar")
      ∧ ∃ tr, WriteSource noFaults collidingMd collidingMd.fileWrites = some tr
          ∧ newPath "foo.tar" ∈ stagedPaths tr := by
  refine ⟨by decide, by decide, ⟨⟨"foo.tar", scenarioHash⟩, by decide, rfl⟩, ?_⟩
  refine ⟨[FsEvent.mkdirAll "SPECS" 0o755, FsEvent.mkdirAll "SOURCES" 0o755,
    FsEvent.openFile "SOURCES/foo.tar" openFlags 0o666,
    FsEvent.write "SOURCES/foo.tar" "A", FsEvent.close "SOURCES/foo.tar",
    FsEvent.openFile "SOURCES/foo.tar" openFlags 0o666,
    FsEvent.write "SOURCES/foo.tar" "B", FsEvent.close "SOURCES/foo.tar",
    FsEvent.add "SOURCES/foo.tar",
    FsEvent.create ".gitignore",
    FsEvent.write ".gitignore" "SOURCES/&\x7bfoo.tar sha256\x7d\n",
    FsEvent.close ".gitignore"], by decide, by decide⟩

/-- C2, amended: in a run of `WriteSource` that does not abort, every entry of
`fileWrites` whose name equals the name of an entry of `sourcesToIgnore` has
its destination path opened, written with the content of the entry and closed
(the file then holds exactly that content), and the next call is not an `Add`;
the destination path is among the written paths, and, on a worktree where
nothing was staged before, it is not among the paths passed to `worktree.Add`
provided every entry of `fileWrites` with the same destination is excluded
too. -/
theorem C2_excluded_written_not_staged (ft : Faults) (md : modeData)
    (order : List (String × String)) (tr : List FsEvent) (name content : String)
    (hperm : order.Perm md.fileWrites)
    (hin : (name, content) ∈ md.fileWrites)
    (hex : ∃ i ∈ md.sourcesToIgnore, i.name = name)
    (hrun : WriteSource ft md order = some tr) :
    (∃ pre post, tr = pre ++
          [FsEvent.openFile (newPath name) openFlags (fileMode md.rpmFile name),
            FsEvent.write (newPath name) content, FsEvent.close (newPath name)] ++ post
        ∧ fileContent (pre ++
            [FsEvent.openFile (newPath name) openFlags (fileMode md.rpmFile name),
              FsEvent.write (newPath name) content, FsEvent.close (newPath name)])
            (newPath name) = some content
        ∧ ∀ q, post.head? ≠ some (FsEvent.add q))
      ∧ newPath name ∈ writtenPaths tr
      ∧ (stagedPaths md.worktree = [] →
          (∀ e ∈ md.fileWrites, newPath e.1 = newPath name →
            ∃ i ∈ md.sourcesToIgnore, i.name = e.1) →
          newPath name ∉ stagedPaths tr) := by
  have htr := WriteSource_some ft md order tr hrun
  have hmem : (name, content) ∈ order := hperm.mem_iff.2 hin
  have hic : ignoredContains md.sourcesToIgnore name = true :=
    (ignoredContains_iff _ _).2 hex
  obtain ⟨l1, l2, hl⟩ := List.append_of_mem hmem
  have hev : entryEvents md (name, content)
      = [FsEvent.openFile (newPath name) openFlags (fileMode md.rpmFile name),
          FsEvent.write (newPath name) content, FsEvent.close (newPath name)] := by
    simp [entryEvents, hic]
  have hseg : tr = (md.worktree ++ l1.flatMap (entryEvents md)) ++
      [FsEvent.openFile (newPath name) openFlags (fileMode md.rpmFile name),
        FsEvent.write (newPath name) content, FsEvent.close (newPath name)]
      ++ (l2.flatMap (entryEvents md) ++ ignoreEvents md) := by
    rw [htr, hl, ← hev]
    simp
  refine ⟨⟨_, _, hseg, ?_, ?_⟩, ?_, ?_⟩
  · rw [fileContent_append]
    simp [applyEvent]
  · intro q
    cases l2 with
    | nil => simp [ignoreEvents]
    | cons e l2 => simp [entryEvents]
  · rw [hseg, writtenPaths_append, writtenPaths_append]
    simp [writtenPaths]
  · intro hfresh hall hst
    rw [htr, stagedPaths_append, stagedPaths_append, hfresh, stagedPaths_ignoreEvents,
      stagedPaths_flatMap] at hst
    simp only [List.nil_append, List.append_nil, List.mem_map, List.mem_filter] at hst
    obtain ⟨e, ⟨he, hne⟩, hp⟩ := hst
    have hex2 := hall e (hperm.mem_iff.1 he) hp
    rw [← ignoredContains_iff] at hex2
    simp [hex2] at hne

/-- C2 witness: the tarball `foo-1.0.tar.gz` of the scenario. -/
theorem C2_excluded_written_not_staged_witness :
    WriteSource noFaults scenarioMd scenarioMembers = some scenarioTrace
      ∧ "SOURCES/foo-1.0.tar.gz" ∈ writtenPaths scenarioTrace
      ∧ "SOURCES/foo-1.0.tar.gz" ∉ stagedPaths scenarioTrace :=
  have h := C2_excluded_written_not_staged noFaults scenarioMd scenarioMembers
    scenarioTrace "foo-1.0.tar.gz" "tarball" (List.Perm.refl _) (by decide)
    ⟨⟨"foo-1.0.tar.gz", scenarioHash⟩, by decide, rfl⟩ (by decide)
  ⟨by decide, h.2.1, h.2.2 (by decide) (by decide)⟩

theorem concatLines_length_le (l : List ignoredSource) :
    (concatLines (l.map (fun i => "SOURCES/" ++ i.name ++ "\n"))).length
      ≤ (concatLines (l.map ignoreLine)).length := by
  induction l with
  | nil => simp [concatLines]
  | cons i l ih =>
    simp only [List.map_cons, concatLines, String.length_append, ignoreLine, fmtS]
    omega

theorem gitignore_content (ft : Faults) (md : modeData) (order : List (String × String))
    (tr : List FsEvent) (hrun : WriteSource ft md order = some tr) :
    fileContent tr ".gitignore" = some (concatLines (md.sourcesToIgnore.map ignoreLine))
      ∧ (md.sourcesToIgnore = [] → fileContent tr ".gitignore" = some "")
      ∧ (md.sourcesToIgnore ≠ [] → fileContent tr ".gitignore"
          ≠ some (concatLines (md.sourcesToIgnore.map
              (fun i => "SOURCES/" ++ i.name ++ "\n")))) := by
  have htr := WriteSource_some ft md order tr hrun
  have hc : fileContent tr ".gitignore"
      = some (concatLines (md.sourcesToIgnore.map ignoreLine)) := by
    rw [htr, fileContent_gitignore]
  refine ⟨hc, ?_, ?_⟩
  · intro he
    rw [hc, he]
    rfl
  · intro hne heq
    rw [hc] at heq
    have hlen := congrArg String.length (Option.some.inj heq)
    cases hl : md.sourcesToIgnore with
    | nil => exact hne hl
    | cons i l =>
      rw [hl] at hlen
      have h1 := concatLines_length_le l
      have e1 : " ".length = 1 := rfl
      have e2 : "\x7d".length = 1 := rfl
      have e3 : "&\x7b".length = 2 := rfl
      simp only [List.map_cons, concatLines, String.length_append, ignoreLine, fmtS] at hlen h1
      omega

/-- C4, the code at the failing input: with the single excluded source
`foo-1.0.tar.gz`, whatever text `fmt` gives for the hash accumulator, the run
leaves in `.gitignore` the line `SOURCES/` followed by the `%s` rendering of
the whole struct, which is not the line `SOURCES/foo-1.0.tar.gz`. -/
theorem C4_gitignore_line_renders_struct (newHash : HashState) :
    ∃ tr, WriteSource noFaults
          ⟨[], ⟨["foo-1.0.tar.gz"], [], []⟩, [("foo-1.0.tar.gz", "tarball")], ["rocky9"],
            [⟨"foo-1.0.tar.gz", newHash⟩]⟩ [("foo-1.0.tar.gz", "tarball")] = some tr
      ∧ fileContent tr ".gitignore"
          = some ("SOURCES/" ++ ("&\x7b" ++ "foo-1.0.tar.gz" ++ " " ++ newHash.text ++ "\x7d") ++ "\n")
      ∧ fileContent tr ".gitignore" ≠ some "SOURCES/foo-1.0.tar.gz\n" := by
  refine ⟨_, WriteSource_noFaults _ _, ?_⟩
  have h := gitignore_content noFaults
    ⟨[], ⟨["foo-1.0.tar.gz"], [], []⟩, [("foo-1.0.tar.gz", "tarball")], ["rocky9"],
      [⟨"foo-1.0.tar.gz", newHash⟩]⟩ [("foo-1.0.tar.gz", "tarball")] _ (WriteSource_noFaults _ _)
  refine ⟨?_, ?_⟩
  · rw [h.1]
    simp [concatLines, ignoreLine, fmtS]
  · have h3 := h.2.2 (by simp)
    intro heq
    apply h3
    rw [heq]
    rfl

theorem ignoredContains_names (a b : List ignoredSource)
    (h : a.map (fun i => i.name) = b.map (fun i => i.name)) (x : String) :
    ignoredContains a x = ignoredContains b x := by
  have key : ∀ l : List ignoredSource,
      (ignoredContains l x = true ↔ x ∈ l.map (fun i => i.name)) := by
    intro l
    rw [ignoredContains_iff, List.mem_map]
  rw [Bool.eq_iff_iff, key a, key b, h]

theorem paths_order_independent (ft1 ft2 : Faults) (md1 md2 : modeData)
    (o1 o2 : List (String × String)) (tr1 tr2 : List FsEvent)
    (hw : md1.worktree = md2.worktree)
    (hfw : md1.fileWrites.Perm md2.fileWrites)
    (hnames : md1.sourcesToIgnore.map (fun i => i.name)
      = md2.sourcesToIgnore.map (fun i => i.name))
    (h1 : o1.Perm md1.fileWrites) (h2 : o2.Perm md2.fileWrites)
    (r1 : WriteSource ft1 md1 o1 = some tr1) (r2 : WriteSource ft2 md2 o2 = some tr2) :
    (writtenPaths tr1).Perm (writtenPaths tr2)
      ∧ (stagedPaths tr1).Perm (stagedPaths tr2) := by
  have t1 := WriteSource_some ft1 md1 o1 tr1 r1
  have t2 := WriteSource_some ft2 md2 o2 tr2 r2
  have hperm : o1.Perm o2 := (h1.trans hfw).trans h2.symm
  have hfilter : (fun e : String × String => !ignoredContains md1.sourcesToIgnore e.1)
      = (fun e : String × String => !ignoredContains md2.sourcesToIgnore e.1) := by
    funext e
    rw [ignoredContains_names _ _ hnames]
  have hlines : md1.sourcesToIgnore.map (fun _ => ".gitignore")
      = md2.sourcesToIgnore.map (fun _ => ".gitignore") := by
    have e : ∀ l : List ignoredSource, l.map (fun _ => ".gitignore")
        = (l.map (fun i => i.name)).map (fun _ => ".gitignore") := by
      intro l
      rw [List.map_map]
      rfl
    rw [e md1.sourcesToIgnore, e md2.sourcesToIgnore, hnames]
  constructor
  · rw [t1, t2, writtenPaths_append, writtenPaths_append, writtenPaths_append,
      writtenPaths_append, writtenPaths_flatMap, writtenPaths_flatMap,
      writtenPaths_ignoreEvents, writtenPaths_ignoreEvents, hw, hlines]
    exact ((hperm.map _).append_left _).append_right _
  · rw [t1, t2, stagedPaths_append, stagedPaths_append, stagedPaths_append,
      stagedPaths_append, stagedPaths_flatMap, stagedPaths_flatMap,
      stagedPaths_ignoreEvents, stagedPaths_ignoreEvents, hw, hfilter]
    exact (((hperm.filter _).map _).append_left _).append_right _

theorem gitignore_same_of_same_excluded (ft1 ft2 : Faults) (md1 md2 : modeData)
    (o1 o2 : List (String × String)) (tr1 tr2 : List FsEvent)
    (hign : md1.sourcesToIgnore = md2.sourcesToIgnore)
    (r1 : WriteSource ft1 md1 o1 = some tr1) (r2 : WriteSource ft2 md2 o2 = some tr2) :
    fileContent tr1 ".gitignore" = fileContent tr2 ".gitignore" := by
  rw [(gitignore_content ft1 md1 o1 tr1 r1).1, (gitignore_content ft2 md2 o2 tr2 r2).1, hign]

/-- C9, the code at the failing input: two runs on the same worktree, the same
`fileWrites`, the same metadata and excluded sources of the same names, taken
in two orders, write and stage the same sets of paths, but the accumulator of
the excluded source is in another state in the second run and the two
`.gitignore` files differ, because the line written renders the whole struct,
accumulator included. -/
theorem C9_gitignore_differs_with_accumulator :
    scenarioMd.worktree = scenarioMdFed.worktree
      ∧ scenarioMd.fileWrites = scenarioMdFed.fileWrites
      ∧ scenarioMd.rpmFile = scenarioMdFed.rpmFile
      ∧ scenarioMd.sourcesToIgnore.map (fun i => i.name)
          = scenarioMdFed.sourcesToIgnore.map (fun i => i.name)
      ∧ ∃ tr1 tr2, WriteSource noFaults scenarioMd scenarioMembers = some tr1
          ∧ WriteSource noFaults scenarioMdFed scenarioMembers.reverse = some tr2
          ∧ (∀ p, p ∈ writtenPaths tr1 ↔ p ∈ writtenPaths tr2)
          ∧ (∀ p, p ∈ stagedPaths tr1 ↔ p ∈ stagedPaths tr2)
          ∧ fileContent tr1 ".gitignore" = some "SOURCES/&\x7bfoo-1.0.tar.gz sha256\x7d\n"
          ∧ fileContent tr2 ".gitignore" = some "SOURCES/&\x7bfoo-1.0.tar.gz sha256+7\x7d\n"
          ∧ fileContent tr1 ".gitignore" ≠ fileContent tr2 ".gitignore" := by
  have r1 := WriteSource_noFaults scenarioMd scenarioMembers
  have r2 := WriteSource_noFaults scenarioMdFed scenarioMembers.reverse
  have hp := paths_order_independent noFaults noFaults scenarioMd scenarioMdFed
    scenarioMembers scenarioMembers.reverse _ _ rfl (List.Perm.refl _) rfl (List.Perm.refl _)
    (List.reverse_perm _) r1 r2
  have c1 := (gitignore_content noFaults scenarioMd scenarioMembers _ r1).1
  have c2 := (gitignore_content noFaults scenarioMdFed scenarioMembers.reverse _ r2).1
  have e1 : concatLines (scenarioMd.sourcesToIgnore.map ignoreLine)
      = "SOURCES/&\x7bfoo-1.0.tar.gz sha256\x7d\n" := by decide
  have e2 : concatLines (scenarioMdFed.sourcesToIgnore.map ignoreLine)
      = "SOURCES/&\x7bfoo-1.0.tar.gz sha256+7\x7d\n" := by decide
  rw [e1] at c1
  rw [e2] at c2
  refine ⟨rfl, rfl, rfl, rfl, _, _, r1, r2, fun p => hp.1.mem_iff, fun p => hp.2.mem_iff,
    c1, c2, ?_⟩
  rw [c1, c2]
  decide

/-! ## The claims on the destination path -/

/-- C5: the destination `WriteSource` opens for an entry is a function of the
entry name alone: whatever the fault oracle, the metadata, the excluded sources,
the calls made before and the content, a completed round of the loop opens
exactly one path, `newPath name`, which is `filepath.Join("SPECS", name)` when
the name ends in `.spec` and `filepath.Join("SOURCES", name)` otherwise; the
test `filepath.Ext(name) == ".spec"` of the code holds exactly when the name
ends in `.spec`. -/
theorem C5_destination_by_name (ft : Faults) (md : modeData) (tr : List FsEvent)
    (name contents : String) (tr1 : List FsEvent)
    (h : writeEntry ft md tr name contents = some tr1) :
    (Ext name = ".spec" ↔ hasSuffix name ".spec" = true)
      ∧ newPath name
          = (if hasSuffix name ".spec" then Join ["SPECS", name] else Join ["SOURCES", name])
      ∧ ∃ mode rest, tr1 = tr ++ FsEvent.openFile (newPath name) openFlags mode :: rest
          ∧ ∀ q fl m, FsEvent.openFile q fl m ∉ rest := by
  refine ⟨Ext_spec_iff name, ?_, ?_⟩
  · unfold newPath
    by_cases hs : hasSuffix name ".spec" = true
    · rw [if_pos ((Ext_spec_iff name).2 hs), if_pos hs]
    · rw [if_neg (fun he => hs ((Ext_spec_iff name).1 he)), if_neg hs]
  · refine ⟨fileMode md.rpmFile name,
      [FsEvent.write (newPath name) contents, FsEvent.close (newPath name)]
        ++ (if ignoredContains md.sourcesToIgnore name then []
            else [FsEvent.add (newPath name)]), ?_, ?_⟩
    · rw [writeEntry_some ft md tr name contents tr1 h]
      simp [entryEvents]
    · intro q fl m hm
      split_ifs at hm <;> simp at hm

/-- C5 witness: the spec file of the scenario goes to `SPECS/foo.spec`. -/
theorem C5_destination_by_name_witness :
    writeEntry noFaults scenarioMd [] "foo.spec" "Name: foo"
        = some [FsEvent.openFile "SPECS/foo.spec" openFlags 0o644,
            FsEvent.write "SPECS/foo.spec" "Name: foo", FsEvent.close "SPECS/foo.spec",
            FsEvent.add "SPECS/foo.spec"]
      ∧ newPath "foo.spec" = Join ["SPECS", "foo.spec"]
      ∧ newPath "foo.spec" = "SPECS/foo.spec" :=
  have h := C5_destination_by_name noFaults scenarioMd [] "foo.spec" "Name: foo"
    [FsEvent.openFile "SPECS/foo.spec" openFlags 0o644,
      FsEvent.write "SPECS/foo.spec" "Name: foo", FsEvent.close "SPECS/foo.spec",
      FsEvent.add "SPECS/foo.spec"] (by decide)
  ⟨by decide, h.2.1.trans (by decide), by decide⟩

/-- C6, as stated, fails: a name with a `..` element leaves the directory. The
entry `../x` is written to `x`, not under `SOURCES/`, and the entry
`../x.spec` to `x.spec`, not under `SPECS/`; a name without any real element,
such as `.`, is sent to the directory `SOURCES` itself. -/
theorem C6_counterexample :
    hasSuffix "../x" ".spec" = false ∧ newPath "../x" = "x"
      ∧ hasPrefix (newPath "../x") "SOURCES/" = false
      ∧ hasSuffix "../x.spec" ".spec" = true ∧ newPath "../x.spec" = "x.spec"
      ∧ hasPrefix (newPath "../x.spec") "SPECS/" = false
      ∧ newPath "." = "SOURCES" ∧ hasPrefix (newPath ".") "SOURCES/" = false := by
  decide

/-- C6, amended: for every entry name, the path `WriteSource` opens is the
lexical resolution of the elements of the name against the directory (`SPECS`
when the name ends in `.spec`, `SOURCES` otherwise): empty and `.` elements
are dropped and a `..` element cancels the last element kept before it, the
directory included, or is kept when nothing is left to cancel. The path has
the prefix `SPECS/`, respectively `SOURCES/`, exactly when this resolution
still starts with the directory and has an element after it; it does so in
particular when no `..` element of the name comes with no earlier element of
the name left to cancel and one element of the name is left at the end. -/
theorem C6_destination_containment (name : String) :
    newPath name = renderStack (resolve (splitSep name.data) [(destDir name).data])
      ∧ hasPrefix (newPath name) (destDir name ++ "/") = staysUnder (destDir name) name
      ∧ (neverClimbs (splitSep name.data) 0 = true →
          (hasSuffix name ".spec" = true → hasPrefix (newPath name) "SPECS/" = true)
          ∧ (hasSuffix name ".spec" = false → hasPrefix (newPath name) "SOURCES/" = true)) := by
  refine ⟨newPath_resolve name, hasPrefix_newPath name, ?_⟩
  intro hnc
  have h := hasPrefix_newPath name
  rw [staysUnder_of_neverClimbs _ name hnc] at h
  constructor
  · intro hs
    have hd : destDir name = "SPECS" := by simp [destDir, hs]
    rw [hd] at h
    exact h
  · intro hs
    have hd : destDir name = "SOURCES" := by simp [destDir, hs]
    rw [hd] at h
    exact h

/-- C6 witness: names with a `..` element that stay under the directory,
`a/../b.patch` and `sub/../foo.spec`, and a name with `.`, an empty element
and a leading separator. -/
theorem C6_destination_containment_witness :
    (neverClimbs (splitSep "a/../b.patch".data) 0 = true
        ∧ hasPrefix (newPath "a/../b.patch") "SOURCES/" = true
        ∧ newPath "a/../b.patch" = "SOURCES/b.patch")
      ∧ (neverClimbs (splitSep "sub/../foo.spec".data) 0 = true
        ∧ hasPrefix (newPath "sub/../foo.spec") "SPECS/" = true
        ∧ newPath "sub/../foo.spec" = "SPECS/foo.spec")
      ∧ (neverClimbs (splitSep "/./sub//foo.patch".data) 0 = true
        ∧ hasPrefix (newPath "/./sub//foo.patch") "SOURCES/" = true
        ∧ newPath "/./sub//foo.patch" = "SOURCES/sub/foo.patch")
      ∧ (neverClimbs (splitSep "../x".data) 0 = false
        ∧ staysUnder (destDir "../x") "../x" = false
        ∧ staysUnder (destDir "../SOURCES/x") "../SOURCES/x" = true) :=
  ⟨⟨by decide,
      ((C6_destination_containment "a/../b.patch").2.2 (by decide)).2 (by decide),
      by decide⟩,
    ⟨by decide,
      ((C6_destination_containment "sub/../foo.spec").2.2 (by decide)).1 (by decide),
      by decide⟩,
    ⟨by decide,
      ((C6_destination_containment "/./sub//foo.patch").2.2 (by decide)).2 (by decide),
      by decide⟩,
    ⟨by decide, by decide, by decide⟩⟩

end Srpmproc
